import Mathlib

/-
Verification of the sandbox core of the `assay` crate (`src/lib.rs`):
the `PrivateFS` structure with its constructors `temporary` / `rooted`
and the staging operation `include` (with helpers `include_file` and
`include_directory`).

The embedding is shallow: filesystem paths are lists of components,
the filesystem is a flat association list from absolute canonical
locations to nodes (regular file with byte contents, or directory),
and the process state is a `World` (filesystem plus current working
directory).  The fallible I/O primitives used by the Rust code
(`std::fs::copy`, `fs_err::create_dir_all`, `fs_extra::dir::copy`,
`env::current_dir`, `env::set_current_dir`, `tempfile`) are modelled
by total Lean functions returning `Except`; environmental failures of
the constructors are injected through an `IOEnv` oracle.  Rust panics
(`panic!`) are modelled as a distinct `usage` outcome, `Err` returns
as a `staging` outcome.
-/

set_option autoImplicit false
set_option maxHeartbeats 1000000

namespace Assay

/-- A path component: a normal named segment, or a parent-directory (`..`) step.
`CurDir` components are omitted: `std::path` normalises them away in
`components()`, `file_name` and `parent`, which are the only path
operations the code uses. -/
inductive Component where
  | normal (s : String)
  | parentDir
deriving DecidableEq

/-- Embedding of `std::path::PathBuf`: an absolute flag plus the list of
components. -/
structure Path where
  absolute : Bool
  comps : List Component
deriving DecidableEq

/-- `Path::is_relative`. -/
def Path.isRelative (p : Path) : Bool := !p.absolute

/-- `Path::join`: an absolute argument replaces the receiver, a relative
argument is appended. -/
def Path.join (p q : Path) : Path :=
  if q.absolute then q else ⟨p.absolute, p.comps ++ q.comps⟩

/-- `Path::file_name`: the final component if it is a normal segment,
`None` if the path is empty or ends in `..`. -/
def Path.fileName (p : Path) : Option String :=
  match p.comps.getLast? with
  | some (Component.normal s) => some s
  | _ => none

/-- `Path::parent`: the path without its final component; `None` for the
root or the empty path. -/
def Path.parent (p : Path) : Option Path :=
  match p.comps with
  | [] => none
  | _ => some ⟨p.absolute, p.comps.dropLast⟩

/-- A canonical absolute location in the filesystem: the list of entry
names from the root. -/
abbrev Loc := List String

/-- The absolute path denoting a canonical location. -/
def absPath (l : Loc) : Path := ⟨true, l.map Component.normal⟩

/-- A filesystem node kind: a regular file with its byte contents, or a
directory. -/
inductive NodeK where
  | fileK (contents : List Nat)
  | dirK
deriving DecidableEq

/-- First-match lookup in an association list of locations. -/
def findPairs : List (Loc × NodeK) → Loc → Option NodeK
  | [], _ => none
  | (k, v) :: rest, l => if k = l then some v else findPairs rest l

/-- Replace the first binding of a key, or append a fresh binding. -/
def setPairs : List (Loc × NodeK) → Loc → NodeK → List (Loc × NodeK)
  | [], l, v => [(l, v)]
  | (k, w) :: rest, l, v => if k = l then (l, v) :: rest else (k, w) :: setPairs rest l v

/-- A filesystem: a flat association list from canonical absolute
locations to node kinds. -/
structure Fs where
  nodes : List (Loc × NodeK)
deriving DecidableEq

def Fs.find (fs : Fs) (l : Loc) : Option NodeK := findPairs fs.nodes l

def Fs.set (fs : Fs) (l : Loc) (v : NodeK) : Fs := ⟨setPairs fs.nodes l v⟩

def Fs.addDir (fs : Fs) (l : Loc) : Fs := fs.set l NodeK.dirK

def Fs.setFile (fs : Fs) (l : Loc) (c : List Nat) : Fs := fs.set l (NodeK.fileK c)

/-- Wellformedness of a filesystem: keys are distinct, the root exists
and is a directory, and every non-root node's parent is present as a
directory. -/
def Fs.wf (fs : Fs) : Prop :=
  (fs.nodes.map Prod.fst).Nodup ∧
  fs.find [] = some NodeK.dirK ∧
  ∀ p ∈ fs.nodes, p.1 ≠ [] → (p.1.dropLast, NodeK.dirK) ∈ fs.nodes

instance (fs : Fs) : Decidable fs.wf := by
  unfold Fs.wf; infer_instance

/-- The entries strictly below `base`, as (relative location, kind)
pairs.  This is the content listing `fs_extra::dir::get_dir_content`
produces for the directory at `base`. -/
def Fs.strictUnder (fs : Fs) (base : Loc) : List (Loc × NodeK) :=
  fs.nodes.filterMap fun lk =>
    if base <+: lk.1 ∧ lk.1 ≠ base then some (lk.1.drop base.length, lk.2) else none

/-- The relative locations of the regular files in a content listing. -/
def fileRelsOf (S : List (Loc × NodeK)) : List (Loc × List Nat) :=
  S.filterMap fun rk =>
    match rk.2 with
    | NodeK.fileK c => some (rk.1, c)
    | NodeK.dirK => none

/-- The relative locations of the directories in a content listing. -/
def dirRelsOf (S : List (Loc × NodeK)) : List Loc :=
  S.filterMap fun rk =>
    match rk.2 with
    | NodeK.fileK _ => none
    | NodeK.dirK => some rk.1

/-- The process-visible state: the filesystem and the process-wide
current working directory (a canonical existing location). -/
structure World where
  fs : Fs
  cwd : Loc
deriving DecidableEq

/-- POSIX path resolution from a starting location: each traversal step
(entering a named entry or taking `..`) requires the location being
left to be an existing directory; the final location itself need not
exist. -/
def resolveSteps (fs : Fs) : Loc → List Component → Option Loc
  | loc, [] => some loc
  | loc, Component.parentDir :: rest =>
    match fs.find loc with
    | some NodeK.dirK => resolveSteps fs loc.dropLast rest
    | _ => none
  | loc, Component.normal s :: rest =>
    match fs.find loc with
    | some NodeK.dirK => resolveSteps fs (loc ++ [s]) rest
    | _ => none

/-- The starting location for resolving a path: the root for absolute
paths, the current working directory otherwise. -/
def World.startLoc (w : World) (p : Path) : Loc :=
  if p.absolute then [] else w.cwd

/-- Resolve a path to a canonical location in a world. -/
def World.resolve (w : World) (p : Path) : Option Loc :=
  resolveSteps w.fs (w.startLoc p) p.comps

/-- `Path::is_file`: the path resolves to an existing regular file. -/
def World.isFile (w : World) (p : Path) : Bool :=
  match w.resolve p with
  | some l =>
    match w.fs.find l with
    | some (NodeK.fileK _) => true
    | _ => false
  | none => false

/-- `Path::is_dir`: the path resolves to an existing directory. -/
def World.isDir (w : World) (p : Path) : Bool :=
  match w.resolve p with
  | some l =>
    match w.fs.find l with
    | some NodeK.dirK => true
    | _ => false
  | none => false

/-- Error messages of the embedded operations. -/
def msgCdaNotDir : String := "create_dir_all: a path component is not a directory"

def msgCdaFileInWay : String := "create_dir_all: a file exists where a directory must be created"

def msgStdCopySrc : String := "copy: the source path does not resolve"

def msgStdCopySrcNotFile : String := "copy: the source is not a regular file"

def msgStdCopyDst : String := "copy: the destination path does not resolve"

def msgStdCopyDirDest : String := "copy: the destination is a directory"

def msgStdCopyCreate : String := "copy: the destination parent is missing or not a directory"

def msgFeSrcNotExist : String := "fs_extra dir copy: the source path does not exist"

def msgFeSrcNotDir : String := "fs_extra dir copy: the source path is not a directory"

def msgFeDstInvalid : String := "fs_extra dir copy: the destination path does not resolve"

def msgFeDstIsFile : String := "fs_extra dir copy: the destination exists and is a regular file"

def msgFeCreateRoot : String := "fs_extra dir copy: cannot create the destination directory"

def msgFeAlreadyExists : String := "fs_extra dir copy: a destination file already exists"

def msgFeFileCopyFail : String := "fs_extra dir copy: copying a file into the destination failed"

def msgFeCopyOntoDir : String := "fs_extra dir copy: the destination of a file is a directory"

/-- `fs_err::create_dir_all`, walking the components from a starting
location and creating every missing directory on the way.  Errors carry
the partially mutated filesystem. -/
def createDirAllAux (fs : Fs) (loc : Loc) : List Component → Except (String × Fs) Fs
  | [] => Except.ok fs
  | Component.parentDir :: rest =>
    match fs.find loc.dropLast with
    | some NodeK.dirK => createDirAllAux fs loc.dropLast rest
    | _ => Except.error (msgCdaNotDir, fs)
  | Component.normal s :: rest =>
    match fs.find (loc ++ [s]) with
    | some NodeK.dirK => createDirAllAux fs (loc ++ [s]) rest
    | some (NodeK.fileK _) => Except.error (msgCdaFileInWay, fs)
    | none => createDirAllAux (fs.addDir (loc ++ [s])) (loc ++ [s]) rest

/-- `fs_err::create_dir_all` on a path in a world. -/
def createDirAll (w : World) (p : Path) : Except (String × Fs) Fs :=
  createDirAllAux w.fs (w.startLoc p) p.comps

/-- `std::fs::copy`: byte-for-byte copy of a regular file, truncating
and overwriting an existing destination file, failing if the
destination is a directory or its parent is missing. -/
def stdCopy (w : World) (src dst : Path) : Except String Fs :=
  match w.resolve src with
  | none => Except.error msgStdCopySrc
  | some sl =>
    match w.fs.find sl with
    | some (NodeK.fileK c) =>
      match w.resolve dst with
      | none => Except.error msgStdCopyDst
      | some dl =>
        match w.fs.find dl with
        | some NodeK.dirK => Except.error msgStdCopyDirDest
        | some (NodeK.fileK _) => Except.ok (w.fs.setFile dl c)
        | none =>
          match w.fs.find dl.dropLast with
          | some NodeK.dirK => Except.ok (w.fs.setFile dl c)
          | _ => Except.error msgStdCopyCreate
    | _ => Except.error msgStdCopySrcNotFile

/-- The options record of `fs_extra::dir::CopyOptions` (the fields the
code can reach). -/
structure CopyOptions where
  overwrite : Bool
  skip_exist : Bool
  content_only : Bool
deriving DecidableEq

/-- The filesystem left behind by a fallible operation, in either
outcome. -/
def resFs : Except (String × Fs) Fs → Fs
  | Except.ok fs => fs
  | Except.error e => e.2

/-- `mutUnder fs fs' base`: going from `fs` to `fs'`, only locations
strictly below `base` changed. -/
def mutUnder (fs fs' : Fs) (base : Loc) : Prop :=
  ∀ l : Loc, ¬(base <+: l ∧ l ≠ base) → fs'.find l = fs.find l

/-- `CopyOptions::new()`: all flags default to `false`. -/
def CopyOptions.new : CopyOptions := ⟨false, false, false⟩

/-- The directory phase of `fs_extra::dir::copy`: for each source
directory (relative location `d`), ensure `dLoc ++ d` exists as a
directory, creating missing ones, failing if a regular file stands in
the way. -/
def createDirsPhase (fs : Fs) (dLoc : Loc) : List Loc → Except (String × Fs) Fs
  | [] => Except.ok fs
  | d :: rest =>
    match createDirAllAux fs dLoc (d.map Component.normal) with
    | Except.ok fs1 => createDirsPhase fs1 dLoc rest
    | Except.error e => Except.error e

/-- The file phase of `fs_extra::dir::copy`: each source file is copied
with `fs_extra::file::copy` semantics — an existing destination is an
error unless `overwrite` (replace) or `skip_exist` (skip) is set. -/
def copyFilesPhase (opts : CopyOptions) (fs : Fs) (dLoc : Loc) :
    List (Loc × List Nat) → Except (String × Fs) Fs
  | [] => Except.ok fs
  | (r, c) :: rest =>
    match fs.find (dLoc ++ r) with
    | some k =>
      if opts.overwrite then
        match k with
        | NodeK.dirK => Except.error (msgFeCopyOntoDir, fs)
        | NodeK.fileK _ => copyFilesPhase opts (fs.setFile (dLoc ++ r) c) dLoc rest
      else if opts.skip_exist then copyFilesPhase opts fs dLoc rest
      else Except.error (msgFeAlreadyExists, fs)
    | none =>
      match fs.find (dLoc ++ r).dropLast with
      | some NodeK.dirK => copyFilesPhase opts (fs.setFile (dLoc ++ r) c) dLoc rest
      | _ => Except.error (msgFeFileCopyFail, fs)

/-- The two phases of `fs_extra::dir::copy` run in order. -/
def feDirPhases (opts : CopyOptions) (fs : Fs) (dLoc : Loc)
    (dirRels : List Loc) (fileRels : List (Loc × List Nat)) : Except (String × Fs) Fs :=
  match createDirsPhase fs dLoc dirRels with
  | Except.error e => Except.error e
  | Except.ok fs1 => copyFilesPhase opts fs1 dLoc fileRels

/-- The destination actually used by `fs_extra::dir::copy`: with
`content_only` the given destination; otherwise the source directory
name is pushed onto it. -/
def feDstLoc (opts : CopyOptions) (src : Path) (dl0 : Loc) : Option Loc :=
  if opts.content_only then some dl0 else
    match src.fileName with
    | some n => some (dl0 ++ [n])
    | none => none

/-- `fs_extra::dir::copy`: the source must be an existing directory; its
content listing is taken up front; with `content_only` the destination
is used as given, otherwise the source directory's name is appended;
the destination directory is created if missing; then the directory
phase and the file phase run. -/
def feDirCopy (opts : CopyOptions) (w : World) (src dst : Path) : Except (String × Fs) Fs :=
  match w.resolve src with
  | none => Except.error (msgFeSrcNotExist, w.fs)
  | some sLoc =>
    match w.fs.find sLoc with
    | some (NodeK.fileK _) => Except.error (msgFeSrcNotDir, w.fs)
    | none => Except.error (msgFeSrcNotExist, w.fs)
    | some NodeK.dirK =>
      match w.resolve dst with
      | none => Except.error (msgFeDstInvalid, w.fs)
      | some dl0 =>
        match feDstLoc opts src dl0 with
        | none => Except.error (msgFeDstInvalid, w.fs)
        | some dLoc =>
          let S := w.fs.strictUnder sLoc
          match w.fs.find dLoc with
          | some (NodeK.fileK _) =>
            if S.isEmpty then Except.ok w.fs
            else Except.error (msgFeDstIsFile, w.fs)
          | some NodeK.dirK => feDirPhases opts w.fs dLoc (dirRelsOf S) (fileRelsOf S)
          | none =>
            match w.fs.find dLoc.dropLast with
            | some NodeK.dirK => feDirPhases opts (w.fs.addDir dLoc) dLoc (dirRelsOf S) (fileRelsOf S)
            | _ => Except.error (msgFeCreateRoot, w.fs)

/-- `TestWorkingDirectory`: the owned temporary directory or the
caller-supplied rooted directory, each holding the path it answers
from `path()`. -/
inductive TestWorkingDirectory where
  | temporary (p : Path)
  | rooted (p : Path)
deriving DecidableEq

/-- `TestWorkingDirectory::path`. -/
def TestWorkingDirectory.pathOf : TestWorkingDirectory → Path
  | TestWorkingDirectory.temporary p => p
  | TestWorkingDirectory.rooted p => p

/-- `PrivateFS`: the directory handle plus the directory the test was
run from. -/
structure PrivateFS where
  ran_from : Path
  directory : TestWorkingDirectory
deriving DecidableEq

/-- The error value returned from a failed constructor: the optional
`anyhow::Context` message describing the failing step, and the
underlying I/O cause.  A bare `?` on an `io::Error` produces a value
with no context. -/
structure SetupErr where
  context : Option String
  cause : String
deriving DecidableEq

/-- The environmental oracle for a constructor run: whether
`env::current_dir` fails, whether `tempfile` fails, the fresh location
`tempfile` would pick, and whether `env::set_current_dir` fails. -/
structure IOEnv where
  currentDirErr : Option String
  tempdirErr : Option String
  tmpLoc : Loc
  setCwdErr : Option String
deriving DecidableEq

def ctxCreateRoot : String := "Failed to create the specific root_directory"

def ctxSetCwd : String := "Failed to set test current directory to the specified root_directory"

def msgTmpCreate : String := "tempdir: cannot create the temporary directory"

def msgChdirFail : String := "set_current_dir: the path is not an existing directory"

/-- `PrivateFS::temporary`: capture `ran_from` from the current working
directory, create a fresh temporary directory, switch the working
directory to it.  Every failure is propagated with `?`, without an
added context. -/
def PrivateFS.temporary (w : World) (env : IOEnv) : Except SetupErr (PrivateFS × World) :=
  match env.currentDirErr with
  | some e => Except.error ⟨none, e⟩
  | none =>
    let ran_from := absPath w.cwd
    match env.tempdirErr with
    | some e => Except.error ⟨none, e⟩
    | none =>
      match w.fs.find env.tmpLoc.dropLast with
      | some NodeK.dirK =>
        match w.fs.find env.tmpLoc with
        | none =>
          let fs1 := w.fs.addDir env.tmpLoc
          match env.setCwdErr with
          | some e => Except.error ⟨none, e⟩
          | none =>
            Except.ok (⟨ran_from, TestWorkingDirectory.temporary (absPath env.tmpLoc)⟩,
              ⟨fs1, env.tmpLoc⟩)
        | some _ => Except.error ⟨none, msgTmpCreate⟩
      | _ => Except.error ⟨none, msgTmpCreate⟩

/-- `PrivateFS::rooted`: capture `ran_from`, `create_dir_all` the root
(with an `anyhow` context), switch the working directory to it (with
an `anyhow` context). -/
def PrivateFS.rooted (w : World) (env : IOEnv) (root : Path) : Except SetupErr (PrivateFS × World) :=
  match env.currentDirErr with
  | some e => Except.error ⟨none, e⟩
  | none =>
    let ran_from := absPath w.cwd
    match createDirAll w root with
    | Except.error e => Except.error ⟨some ctxCreateRoot, e.1⟩
    | Except.ok fs1 =>
      match env.setCwdErr with
      | some e => Except.error ⟨some ctxSetCwd, e⟩
      | none =>
        match resolveSteps fs1 (w.startLoc root) root.comps with
        | none => Except.error ⟨some ctxSetCwd, msgChdirFail⟩
        | some loc =>
          match fs1.find loc with
          | some NodeK.dirK =>
            Except.ok (⟨ran_from, TestWorkingDirectory.rooted root⟩, ⟨fs1, loc⟩)
          | _ => Except.error ⟨some ctxSetCwd, msgChdirFail⟩

/-- The outcome of an `include` call: success, a panic caused by a
usage violation, or an `Err` return (staging failure).  Every outcome
carries the world as left behind by the call. -/
inductive IncResult where
  | ok (w : World)
  | usage (w : World) (msg : String)
  | staging (w : World) (msg : String)
deriving DecidableEq

/-- The filesystem carried by an outcome. -/
def IncResult.fsOf : IncResult → Fs
  | IncResult.ok w => w.fs
  | IncResult.usage w _ => w.fs
  | IncResult.staging w _ => w.fs

/-- The working directory carried by an outcome. -/
def IncResult.cwdOf : IncResult → Loc
  | IncResult.ok w => w.cwd
  | IncResult.usage w _ => w.cwd
  | IncResult.staging w _ => w.cwd

/-- The outcome kind: `0` success, `1` usage panic, `2` staging
error. -/
def IncResult.tagOf : IncResult → Nat
  | IncResult.ok _ => 0
  | IncResult.usage _ _ => 1
  | IncResult.staging _ _ => 2

/-- The message carried by a failing outcome. -/
def IncResult.msgOf : IncResult → Option String
  | IncResult.ok _ => none
  | IncResult.usage _ m => some m
  | IncResult.staging _ m => some m

def msgPanicNeither : String :=
  "The source path passed to include must point to a file or a directory; it is neither"

def msgPanicFileName : String :=
  "Failed to extract the filename from the source path"

def msgPanicRelFile : String :=
  "The destination path for included files must be a relative path"

def msgPanicRelDir : String :=
  "The destination path for the included directory must be a relative path"

def ctxCreateParentFile : String :=
  "Failed to create the parent directory for a file that should have been copied into the test working directory"

def ctxCopyFile : String :=
  "Failed to copy a file into the test working directory"

def ctxCreateParentDir : String :=
  "Failed to create the parent directory for a directory that will be included into the test working directory"

def ctxCopyDir : String :=
  "Failed to copy the content of a directory into the test working directory"

/-- `PrivateFS::include_file`: destination defaulting (root of the
sandbox plus the source's file name; panic when the name cannot be
extracted), relativity check on a supplied destination (panic on an
absolute one), parent creation, then `std::fs::copy`. -/
def PrivateFS.include_file (fs_ : PrivateFS) (w : World) (inner : Path)
    (dstOpt : Option Path) : IncResult :=
  let dir := fs_.directory.pathOf
  match dstOpt with
  | none =>
    match inner.fileName with
    | none => IncResult.usage w msgPanicFileName
    | some fn =>
      match stdCopy w inner (dir.join ⟨false, [Component.normal fn]⟩) with
      | Except.ok fs1 => IncResult.ok ⟨fs1, w.cwd⟩
      | Except.error _ => IncResult.staging w ctxCopyFile
  | some p =>
    if p.isRelative then
      match p.parent with
      | none =>
        match stdCopy w inner (dir.join p) with
        | Except.ok fs1 => IncResult.ok ⟨fs1, w.cwd⟩
        | Except.error _ => IncResult.staging w ctxCopyFile
      | some par =>
        match createDirAll w (dir.join par) with
        | Except.error e => IncResult.staging ⟨e.2, w.cwd⟩ ctxCreateParentFile
        | Except.ok fs1 =>
          match stdCopy ⟨fs1, w.cwd⟩ inner (dir.join p) with
          | Except.ok fs2 => IncResult.ok ⟨fs2, w.cwd⟩
          | Except.error _ => IncResult.staging ⟨fs1, w.cwd⟩ ctxCopyFile
    else IncResult.usage w msgPanicRelFile

/-- `PrivateFS::include_directory`: destination defaulting (the sandbox
root itself), relativity check (panic on an absolute destination),
parent creation, then `fs_extra::dir::copy` with `content_only`. -/
def PrivateFS.include_directory (fs_ : PrivateFS) (w : World) (inner : Path)
    (dstOpt : Option Path) : IncResult :=
  let dir := fs_.directory.pathOf
  let opts : CopyOptions := ⟨CopyOptions.new.overwrite, CopyOptions.new.skip_exist, true⟩
  match dstOpt with
  | none =>
    match feDirCopy opts w inner dir with
    | Except.ok fs1 => IncResult.ok ⟨fs1, w.cwd⟩
    | Except.error e => IncResult.staging ⟨e.2, w.cwd⟩ ctxCopyDir
  | some p =>
    if p.isRelative then
      match p.parent with
      | none =>
        match feDirCopy opts w inner (dir.join p) with
        | Except.ok fs1 => IncResult.ok ⟨fs1, w.cwd⟩
        | Except.error e => IncResult.staging ⟨e.2, w.cwd⟩ ctxCopyDir
      | some par =>
        match createDirAll w (dir.join par) with
        | Except.error e => IncResult.staging ⟨e.2, w.cwd⟩ ctxCreateParentDir
        | Except.ok fs1 =>
          match feDirCopy opts ⟨fs1, w.cwd⟩ inner (dir.join p) with
          | Except.ok fs2 => IncResult.ok ⟨fs2, w.cwd⟩
          | Except.error e => IncResult.staging ⟨e.2, w.cwd⟩ ctxCopyDir
    else IncResult.usage w msgPanicRelDir

/-- Source resolution performed by `PrivateFS::include`: an absolute
source path is used verbatim, a relative one is joined onto
`ran_from`. -/
def PrivateFS.resolveSource (fs_ : PrivateFS) (srcPath : Path) : Path :=
  if srcPath.isRelative then fs_.ran_from.join srcPath else srcPath

/-- `PrivateFS::include`: resolve the source, classify it as file /
directory / neither (panicking in the last case), and dispatch. -/
def PrivateFS.include (fs_ : PrivateFS) (w : World) (srcPath : Path)
    (dstOpt : Option Path) : IncResult :=
  let inner := fs_.resolveSource srcPath
  if w.isFile inner then fs_.include_file w inner dstOpt
  else if w.isDir inner then fs_.include_directory w inner dstOpt
  else IncResult.usage w msgPanicNeither

/-! ### Concrete fixtures used for witnesses and counterexamples -/

/-- A small world: a sandbox directory `sb` containing a file `x`, a
source directory `srcd` containing `x` and `y/z`, and a loose file
`f`. -/
def exFs : Fs := ⟨[([], NodeK.dirK), (["sb"], NodeK.dirK), (["sb", "x"], NodeK.fileK [2]),
  (["srcd"], NodeK.dirK), (["srcd", "x"], NodeK.fileK [1]), (["srcd", "y"], NodeK.dirK),
  (["srcd", "y", "z"], NodeK.fileK [3]), (["f"], NodeK.fileK [7])]⟩

def exW : World := ⟨exFs, ["sb"]⟩

/-- The same world without the colliding `sb/x`. -/
def exFsClean : Fs := ⟨[([], NodeK.dirK), (["sb"], NodeK.dirK),
  (["srcd"], NodeK.dirK), (["srcd", "x"], NodeK.fileK [1]), (["srcd", "y"], NodeK.dirK),
  (["srcd", "y", "z"], NodeK.fileK [3]), (["f"], NodeK.fileK [7])]⟩

def exWClean : World := ⟨exFsClean, ["sb"]⟩

/-- A sandbox rooted at `sb`, run from the filesystem root. -/
def exSandbox : PrivateFS := ⟨absPath [], TestWorkingDirectory.rooted (absPath ["sb"])⟩

/-- A benign constructor environment. -/
def exEnv : IOEnv := ⟨none, none, ["tmpX"], none⟩

/-! ### Association-list and wellformedness lemmas -/

theorem findPairs_set (ps : List (Loc × NodeK)) (k l : Loc) (v : NodeK) :
    findPairs (setPairs ps k v) l = if k = l then some v else findPairs ps l := by
  induction ps with
  | nil =>
    by_cases h : k = l <;> simp [setPairs, findPairs, h]
  | cons hd tl ih =>
    obtain ⟨k1, v1⟩ := hd
    by_cases h1 : k1 = k
    · subst h1
      by_cases h2 : k1 = l <;> simp [setPairs, findPairs, h2]
    · by_cases h2 : k1 = l
      · subst h2
        have hk : k ≠ k1 := fun h => h1 h.symm
        simp [setPairs, findPairs, h1, hk]
      · by_cases h3 : k = l
        · subst h3
          simp [setPairs, findPairs, h1, h2, ih]
        · simp [setPairs, findPairs, h1, h2, h3, ih]

theorem Fs.find_set (fs : Fs) (k l : Loc) (v : NodeK) :
    (fs.set k v).find l = if k = l then some v else fs.find l := by
  simp [Fs.find, Fs.set, findPairs_set]

theorem Fs.find_addDir (fs : Fs) (k l : Loc) :
    (fs.addDir k).find l = if k = l then some NodeK.dirK else fs.find l := by
  simp [Fs.addDir, Fs.find_set]

theorem Fs.find_setFile (fs : Fs) (k l : Loc) (c : List Nat) :
    (fs.setFile k c).find l = if k = l then some (NodeK.fileK c) else fs.find l := by
  simp [Fs.setFile, Fs.find_set]

theorem mem_of_findPairs_some {ps : List (Loc × NodeK)} {l : Loc} {v : NodeK}
    (h : findPairs ps l = some v) : (l, v) ∈ ps := by
  induction ps with
  | nil => simp [findPairs] at h
  | cons hd tl ih =>
    obtain ⟨k1, v1⟩ := hd
    by_cases h1 : k1 = l
    · subst h1
      simp [findPairs] at h
      simp [h]
    · simp [findPairs, h1] at h
      exact List.mem_cons_of_mem _ (ih h)

theorem findPairs_of_mem_nodup {ps : List (Loc × NodeK)} {l : Loc} {v : NodeK}
    (hnd : (ps.map Prod.fst).Nodup) (h : (l, v) ∈ ps) : findPairs ps l = some v := by
  induction ps with
  | nil => simp at h
  | cons hd tl ih =>
    obtain ⟨k1, v1⟩ := hd
    simp only [List.map_cons, List.nodup_cons] at hnd
    rcases List.mem_cons.mp h with h0 | h0
    · obtain ⟨h1, h2⟩ := Prod.mk.injEq .. ▸ h0
      simp [findPairs, h1.symm, h2]
    · have hne : k1 ≠ l := by
        intro he
        exact hnd.1 (he ▸ (List.mem_map.mpr ⟨(l, v), h0, rfl⟩))
      simp [findPairs, hne]
      exact ih hnd.2 h0

theorem Fs.mem_of_find_some {fs : Fs} {l : Loc} {v : NodeK}
    (h : fs.find l = some v) : (l, v) ∈ fs.nodes :=
  mem_of_findPairs_some h

theorem Fs.find_of_mem {fs : Fs} {l : Loc} {v : NodeK} (hwf : fs.wf)
    (h : (l, v) ∈ fs.nodes) : fs.find l = some v :=
  findPairs_of_mem_nodup hwf.1 h

theorem Fs.wf_find_parent {fs : Fs} {l : Loc} {v : NodeK} (hwf : fs.wf)
    (h : fs.find l = some v) (hne : l ≠ []) : fs.find l.dropLast = some NodeK.dirK :=
  fs.find_of_mem hwf (hwf.2.2 (l, v) (fs.mem_of_find_some h) hne)

theorem Fs.wf_find_prefix {fs : Fs} (hwf : fs.wf) :
    ∀ l : Loc, ∀ {v : NodeK}, fs.find l = some v →
    ∀ pre : Loc, pre <+: l → pre ≠ l → fs.find pre = some NodeK.dirK := by
  intro l
  induction l using List.reverseRecOn with
  | nil =>
    intro v _ pre hpre hne
    exact absurd (List.prefix_nil.mp hpre) hne
  | append_singleton l a ih =>
    intro v h pre hpre hne
    have hparent : fs.find l = some NodeK.dirK := by
      have := fs.wf_find_parent hwf h (by simp)
      rwa [List.dropLast_concat] at this
    rcases List.prefix_concat_iff.mp hpre with h0 | h0
    · exact absurd h0 hne
    · by_cases h2 : pre = l
      · exact h2 ▸ hparent
      · exact ih hparent pre h0 h2

/-! ### Resolution lemmas -/

theorem resolveSteps_append (fs : Fs) (a b : List Component) :
    ∀ loc, resolveSteps fs loc (a ++ b) =
      (resolveSteps fs loc a).bind fun m => resolveSteps fs m b := by
  induction a with
  | nil => intro loc; simp [resolveSteps]
  | cons c rest ih =>
    intro loc
    cases c with
    | normal s =>
      cases h : fs.find loc with
      | none => simp [resolveSteps, h]
      | some k =>
        cases k with
        | fileK c0 => simp [resolveSteps, h]
        | dirK => simp [resolveSteps, h, ih]
    | parentDir =>
      cases h : fs.find loc with
      | none => simp [resolveSteps, h]
      | some k =>
        cases k with
        | fileK c0 => simp [resolveSteps, h]
        | dirK => simp [resolveSteps, h, ih]

theorem resolveSteps_normal_shape (fs : Fs) (names : List String) :
    ∀ loc out, resolveSteps fs loc (names.map Component.normal) = some out →
      out = loc ++ names := by
  induction names with
  | nil =>
    intro loc out h
    simp [resolveSteps] at h
    simp [h.symm]
  | cons s rest ih =>
    intro loc out h
    cases hf : fs.find loc with
    | none => simp [resolveSteps, hf] at h
    | some k =>
      cases k with
      | fileK c0 => simp [resolveSteps, hf] at h
      | dirK =>
        simp only [List.map_cons, resolveSteps, hf] at h
        have := ih (loc ++ [s]) out h
        simp [this]

theorem resolveSteps_of_chain (fs : Fs) (names : List String) :
    ∀ loc, (∀ pre : Loc, pre <+: names → pre ≠ names → fs.find (loc ++ pre) = some NodeK.dirK) →
      resolveSteps fs loc (names.map Component.normal) = some (loc ++ names) := by
  induction names with
  | nil => intro loc _; simp [resolveSteps]
  | cons s rest ih =>
    intro loc h
    have hloc : fs.find loc = some NodeK.dirK := by
      have := h [] ⟨s :: rest, rfl⟩ (by simp)
      simpa using this
    have hrest := ih (loc ++ [s]) (by
      intro pre hpre hne
      have h1 : (s :: pre) <+: (s :: rest) := by
        exact List.cons_prefix_cons.mpr ⟨rfl, hpre⟩
      have h2 : (s :: pre) ≠ (s :: rest) := by
        intro he
        exact hne (List.cons.injEq .. ▸ he).2
      have := h (s :: pre) h1 h2
      simpa [List.append_assoc] using this)
    simp only [List.map_cons, resolveSteps, hloc, hrest]
    simp

theorem Fs.resolve_of_find {fs : Fs} {l : Loc} {v : NodeK} (hwf : fs.wf)
    (h : fs.find l = some v) :
    resolveSteps fs [] (l.map Component.normal) = some l := by
  have := resolveSteps_of_chain fs l [] (by
    intro pre hpre hne
    simpa using fs.wf_find_prefix hwf l h pre hpre hne)
  simpa using this

theorem Fs.resolve_extension {fs : Fs} {base : Loc} (hwf : fs.wf)
    (h : fs.find base = some NodeK.dirK) (x : String) :
    resolveSteps fs [] ((base ++ [x]).map Component.normal) = some (base ++ [x]) := by
  have := resolveSteps_of_chain fs (base ++ [x]) [] (by
    intro pre hpre hne
    rcases List.prefix_concat_iff.mp hpre with h0 | h0
    · exact absurd h0 hne
    · by_cases h2 : pre = base
      · simpa [h2] using h
      · simpa using fs.wf_find_prefix hwf base h pre h0 h2)
  simpa using this

theorem absPath_absolute (l : Loc) : (absPath l).absolute = true := rfl

theorem absPath_comps (l : Loc) : (absPath l).comps = l.map Component.normal := rfl

theorem startLoc_absolute (w : World) {p : Path} (h : p.absolute = true) :
    w.startLoc p = [] := by
  simp [World.startLoc, h]

theorem join_absPath_rel (base : Loc) (cs : List Component) :
    (absPath base).join ⟨false, cs⟩ = ⟨true, base.map Component.normal ++ cs⟩ := by
  simp [Path.join, absPath]

/-! ### Mutation confinement -/

theorem mutUnder_refl (fs : Fs) (base : Loc) : mutUnder fs fs base := fun _ _ => rfl

theorem mutUnder_trans {fs1 fs2 fs3 : Fs} {base : Loc} (h1 : mutUnder fs1 fs2 base)
    (h2 : mutUnder fs2 fs3 base) : mutUnder fs1 fs3 base :=
  fun l hl => (h2 l hl).trans (h1 l hl)

theorem mutUnder_set {fs : Fs} {base k : Loc} (v : NodeK)
    (hk : base <+: k ∧ k ≠ base) : mutUnder fs (fs.set k v) base := by
  intro l hl
  rw [Fs.find_set]
  have hne : k ≠ l := by
    rintro rfl
    exact hl hk
  simp [hne]

theorem mutUnder_mono {fs fs' : Fs} {base big : Loc} (h : mutUnder fs fs' big)
    (hpre : base <+: big) : mutUnder fs fs' base := by
  intro l hl
  refine h l ?_
  rintro ⟨h1, h2⟩
  refine hl ⟨hpre.trans h1, fun he => h2 ?_⟩
  subst he
  exact hpre.eq_of_length (le_antisymm hpre.length_le h1.length_le)

/-! ### `createDirAllAux` lemmas -/

theorem cdaa_normal_frame (names : List String) : ∀ (fs : Fs) (loc : Loc),
    mutUnder fs (resFs (createDirAllAux fs loc (names.map Component.normal))) loc := by
  induction names with
  | nil => intro fs loc; exact mutUnder_refl fs loc
  | cons s rest ih =>
    intro fs loc
    have hstep : loc <+: loc ++ [s] ∧ loc ++ [s] ≠ loc := by
      refine ⟨List.prefix_append loc [s], ?_⟩
      simp
    cases h : fs.find (loc ++ [s]) with
    | none =>
      have h1 : mutUnder fs (fs.addDir (loc ++ [s])) loc := mutUnder_set _ hstep
      have h2 := ih (fs.addDir (loc ++ [s])) (loc ++ [s])
      simp only [List.map_cons, createDirAllAux, h]
      exact mutUnder_trans h1 (mutUnder_mono h2 hstep.1)
    | some k =>
      cases k with
      | fileK c =>
        simp only [List.map_cons, createDirAllAux, h]
        exact mutUnder_refl fs loc
      | dirK =>
        have h2 := ih fs (loc ++ [s])
        simp only [List.map_cons, createDirAllAux, h]
        exact mutUnder_mono h2 hstep.1

theorem cdaa_skip (chain : List String) : ∀ (fs : Fs) (loc : Loc) (rest : List Component),
    (∀ pre : Loc, pre <+: chain → pre ≠ [] → fs.find (loc ++ pre) = some NodeK.dirK) →
    createDirAllAux fs loc ((chain.map Component.normal) ++ rest) =
      createDirAllAux fs (loc ++ chain) rest := by
  induction chain with
  | nil => intro fs loc rest _; simp
  | cons s chain ih =>
    intro fs loc rest h
    have hs : fs.find (loc ++ [s]) = some NodeK.dirK :=
      h [s] ⟨chain, rfl⟩ (by simp)
    have htail := ih fs (loc ++ [s]) rest (by
      intro pre hpre hne
      have h1 : (s :: pre) <+: (s :: chain) := List.cons_prefix_cons.mpr ⟨rfl, hpre⟩
      have := h (s :: pre) h1 (by simp)
      simpa [List.append_assoc] using this)
    simp only [List.map_cons, List.cons_append, createDirAllAux, hs]
    have h2 : loc ++ [s] ++ chain = loc ++ s :: chain := by
      rw [List.append_assoc, List.singleton_append]
    exact h2 ▸ htail

theorem cdaa_mono : ∀ (comps : List Component) (fs : Fs) (loc : Loc) (fs' : Fs),
    createDirAllAux fs loc comps = Except.ok fs' →
    ∀ (l : Loc) (v : NodeK), fs.find l = some v → fs'.find l = some v := by
  intro comps
  induction comps with
  | nil =>
    intro fs loc fs' h l v hv
    simp only [createDirAllAux] at h
    cases h
    exact hv
  | cons c rest ih =>
    intro fs loc fs' h l v hv
    cases c with
    | parentDir =>
      cases h0 : fs.find loc.dropLast with
      | none => simp [createDirAllAux, h0] at h
      | some k =>
        cases k with
        | fileK c0 => simp [createDirAllAux, h0] at h
        | dirK =>
          simp only [createDirAllAux, h0] at h
          exact ih fs loc.dropLast fs' h l v hv
    | normal s =>
      cases h0 : fs.find (loc ++ [s]) with
      | none =>
        simp only [createDirAllAux, h0] at h
        refine ih _ (loc ++ [s]) fs' h l v ?_
        rw [Fs.find_addDir]
        have hne : loc ++ [s] ≠ l := by
          rintro rfl
          rw [h0] at hv
          exact Option.noConfusion hv
        simp [hne, hv]
      | some k =>
        cases k with
        | fileK c0 => simp [createDirAllAux, h0] at h
        | dirK =>
          simp only [createDirAllAux, h0] at h
          exact ih fs (loc ++ [s]) fs' h l v hv

theorem cdaa_normal_ok (names : List String) : ∀ (fs : Fs) (loc : Loc),
    fs.find loc = some NodeK.dirK →
    (∀ pre : Loc, pre <+: names → pre ≠ [] →
      fs.find (loc ++ pre) = none ∨ fs.find (loc ++ pre) = some NodeK.dirK) →
    ∃ fs' : Fs, createDirAllAux fs loc (names.map Component.normal) = Except.ok fs' ∧
      (∀ l : Loc, fs'.find l = fs.find l ∨
        (fs'.find l = some NodeK.dirK ∧ fs.find l = none ∧
          ∃ pre : Loc, pre <+: names ∧ pre ≠ [] ∧ l = loc ++ pre)) ∧
      (∀ pre : Loc, pre <+: names → fs'.find (loc ++ pre) = some NodeK.dirK) := by
  induction names with
  | nil =>
    intro fs loc hloc _
    refine ⟨fs, by simp [createDirAllAux], fun l => Or.inl rfl, ?_⟩
    intro pre hpre
    have : pre = [] := List.prefix_nil.mp hpre
    simpa [this] using hloc
  | cons s rest ih =>
    intro fs loc hloc h
    have hhead := h [s] ⟨rest, rfl⟩ (by simp)
    have hchain : ∀ (fsx : Fs), fsx.find (loc ++ [s]) = some NodeK.dirK →
        (∀ pre : Loc, pre <+: (s :: rest) → pre ≠ [] →
          fsx.find (loc ++ pre) = fs.find (loc ++ pre) ∨
            fsx.find (loc ++ pre) = some NodeK.dirK) →
        (∀ pre : Loc, pre <+: rest → pre ≠ [] →
          fsx.find ((loc ++ [s]) ++ pre) = none ∨
            fsx.find ((loc ++ [s]) ++ pre) = some NodeK.dirK) := by
      intro fsx _ hrel pre hpre hne
      have h1 : (s :: pre) <+: (s :: rest) := List.cons_prefix_cons.mpr ⟨rfl, hpre⟩
      have h2 := hrel (s :: pre) h1 (by simp)
      have h3 := h (s :: pre) h1 (by simp)
      rw [List.append_assoc, List.singleton_append]
      rcases h2 with h2 | h2
      · rw [h2]; exact h3
      · exact Or.inr h2
    rcases hhead with hnone | hdir
    · -- the entry is missing: create it and continue
      set fs1 := fs.addDir (loc ++ [s]) with hfs1
      have hfs1find : ∀ l : Loc, fs1.find l =
          if loc ++ [s] = l then some NodeK.dirK else fs.find l := by
        intro l; rw [hfs1, Fs.find_addDir]
      have h1dir : fs1.find (loc ++ [s]) = some NodeK.dirK := by simp [hfs1find]
      obtain ⟨fs', hok, hchar, hall⟩ := ih fs1 (loc ++ [s]) h1dir (by
        refine hchain fs1 h1dir ?_
        intro pre hpre hne
        rw [hfs1find]
        by_cases he : loc ++ [s] = loc ++ pre
        · simp [he]
        · simp [he])
      refine ⟨fs', ?_, ?_, ?_⟩
      · simp only [List.map_cons, createDirAllAux, hnone, ← hfs1]
        exact hok
      · intro l
        rcases hchar l with hc | hc
        · rw [hc, hfs1find]
          by_cases he : loc ++ [s] = l
          · subst he
            exact Or.inr ⟨by simp [hfs1find], hnone, [s], ⟨rest, rfl⟩, by simp, rfl⟩
          · simp [he]
        · obtain ⟨hc1, hc2, pre, hp1, hp2, hp3⟩ := hc
          rw [hfs1find] at hc2
          by_cases he : loc ++ [s] = l
          · rw [if_pos he] at hc2
            exact Option.noConfusion hc2
          · rw [if_neg he] at hc2
            refine Or.inr ⟨hc1, hc2, s :: pre, List.cons_prefix_cons.mpr ⟨rfl, hp1⟩, by simp, ?_⟩
            rw [hp3]
            simp [List.append_assoc]
      · intro pre hpre
        cases pre with
        | nil =>
          rw [List.append_nil]
          rcases hchar loc with hc | hc
          · rw [hc, hfs1find]
            have hne : loc ++ [s] ≠ loc := by simp
            rw [if_neg hne]
            exact hloc
          · exact hc.1
        | cons s0 pre0 =>
          obtain ⟨he, hp⟩ := List.cons_prefix_cons.mp hpre
          subst he
          have := hall pre0 hp
          rw [List.append_assoc, List.singleton_append] at this
          exact this
    · -- the entry already exists as a directory: continue into it
      obtain ⟨fs', hok, hchar, hall⟩ := ih fs (loc ++ [s]) hdir (by
        refine hchain fs hdir ?_
        intro pre _ _
        exact Or.inl rfl)
      refine ⟨fs', ?_, ?_, ?_⟩
      · simp only [List.map_cons, createDirAllAux, hdir]
        exact hok
      · intro l
        rcases hchar l with hc | hc
        · exact Or.inl hc
        · obtain ⟨hc1, hc2, pre, hp1, hp2, hp3⟩ := hc
          refine Or.inr ⟨hc1, hc2, s :: pre, List.cons_prefix_cons.mpr ⟨rfl, hp1⟩, by simp, ?_⟩
          rw [hp3]
          simp [List.append_assoc]
      · intro pre hpre
        cases pre with
        | nil =>
          rw [List.append_nil]
          rcases hchar loc with hc | hc
          · rw [hc]; exact hloc
          · exact hc.1
        | cons s0 pre0 =>
          obtain ⟨he, hp⟩ := List.cons_prefix_cons.mp hpre
          subst he
          have := hall pre0 hp
          rw [List.append_assoc, List.singleton_append] at this
          exact this

/-! ### Directory-phase lemmas -/

theorem createDirsPhase_frame (dLoc : Loc) : ∀ (ds : List Loc) (fs : Fs),
    mutUnder fs (resFs (createDirsPhase fs dLoc ds)) dLoc := by
  intro ds
  induction ds with
  | nil => intro fs; exact mutUnder_refl fs dLoc
  | cons d rest ih =>
    intro fs
    have hd := cdaa_normal_frame d fs dLoc
    cases h : createDirAllAux fs dLoc (d.map Component.normal) with
    | ok fs1 =>
      rw [h] at hd
      simp only [createDirsPhase, h]
      exact mutUnder_trans hd (ih fs1)
    | error e =>
      rw [h] at hd
      simp only [createDirsPhase, h]
      exact hd

theorem createDirsPhase_mono (dLoc : Loc) : ∀ (ds : List Loc) (fs fs1 : Fs),
    createDirsPhase fs dLoc ds = Except.ok fs1 →
    ∀ (l : Loc) (v : NodeK), fs.find l = some v → fs1.find l = some v := by
  intro ds
  induction ds with
  | nil =>
    intro fs fs1 h l v hv
    simp only [createDirsPhase] at h
    cases h
    exact hv
  | cons d rest ih =>
    intro fs fs1 h l v hv
    cases h0 : createDirAllAux fs dLoc (d.map Component.normal) with
    | ok fsx =>
      simp only [createDirsPhase, h0] at h
      exact ih fsx fs1 h l v (cdaa_mono _ fs dLoc fsx h0 l v hv)
    | error e =>
      simp only [createDirsPhase, h0] at h
      exact Except.noConfusion h

theorem createDirsPhase_ok (dLoc : Loc) : ∀ (ds : List Loc) (fs : Fs),
    fs.find dLoc = some NodeK.dirK →
    (∀ d ∈ ds, ∀ pre : Loc, pre <+: d → pre ≠ [] →
      fs.find (dLoc ++ pre) = none ∨ fs.find (dLoc ++ pre) = some NodeK.dirK) →
    ∃ fs1 : Fs, createDirsPhase fs dLoc ds = Except.ok fs1 ∧
      (∀ l : Loc, fs1.find l = fs.find l ∨
        (fs1.find l = some NodeK.dirK ∧ fs.find l = none ∧
          ∃ d ∈ ds, ∃ pre : Loc, pre <+: d ∧ pre ≠ [] ∧ l = dLoc ++ pre)) ∧
      (∀ d ∈ ds, fs1.find (dLoc ++ d) = some NodeK.dirK) := by
  intro ds
  induction ds with
  | nil =>
    intro fs hroot _
    exact ⟨fs, by simp [createDirsPhase], fun l => Or.inl rfl, by simp⟩
  | cons d rest ih =>
    intro fs hroot h
    obtain ⟨fsx, hok, hcharx, hallx⟩ :=
      cdaa_normal_ok d fs dLoc hroot (h d (List.mem_cons_self d rest))
    have hrootx : fsx.find dLoc = some NodeK.dirK := by
      rcases hcharx dLoc with hc | hc
      · rw [hc]; exact hroot
      · exact hc.1
    obtain ⟨fs1, hok1, hchar1, hall1⟩ := ih fsx hrootx (by
      intro d0 hd0 pre hpre hne
      rcases hcharx (dLoc ++ pre) with hc | hc
      · rw [hc]
        exact h d0 (List.mem_cons_of_mem d hd0) pre hpre hne
      · exact Or.inr hc.1)
    refine ⟨fs1, ?_, ?_, ?_⟩
    · simp only [createDirsPhase, hok]
      exact hok1
    · intro l
      rcases hchar1 l with hc | hc
      · rcases hcharx l with hcx | hcx
        · rw [hc, hcx]
          exact Or.inl rfl
        · obtain ⟨hc1, hc2, pre, hp1, hp2, hp3⟩ := hcx
          exact Or.inr ⟨hc ▸ hc1, hc2, d, List.mem_cons_self d rest, pre, hp1, hp2, hp3⟩
      · obtain ⟨hc1, hc2, d0, hd0, pre, hp1, hp2, hp3⟩ := hc
        rcases hcharx l with hcx | hcx
        · exact Or.inr ⟨hc1, hcx ▸ hc2, d0, List.mem_cons_of_mem d hd0, pre, hp1, hp2, hp3⟩
        · obtain ⟨hcx1, hcx2, pre0, hq1, hq2, hq3⟩ := hcx
          exact Or.inr ⟨hc1, hcx2, d, List.mem_cons_self d rest, pre0, hq1, hq2, hq3⟩
    · intro d0 hd0
      rcases List.mem_cons.mp hd0 with h0 | h0
      · subst h0
        have hx := hallx d0 List.prefix_rfl
        rcases hchar1 (dLoc ++ d0) with hc | hc
        · rw [hc]; exact hx
        · exact hc.1
      · exact hall1 d0 h0

/-! ### File-phase lemmas -/

theorem copyFilesPhase_frame (opts : CopyOptions) (dLoc : Loc) :
    ∀ (frs : List (Loc × List Nat)) (fs : Fs),
    (∀ rc ∈ frs, rc.1 ≠ ([] : Loc)) →
    mutUnder fs (resFs (copyFilesPhase opts fs dLoc frs)) dLoc := by
  intro frs
  induction frs with
  | nil => intro fs _; exact mutUnder_refl fs dLoc
  | cons rc rest ih =>
    intro fs hne
    obtain ⟨r, c⟩ := rc
    have hr : r ≠ [] := hne (r, c) (List.mem_cons_self _ _)
    have hstrict : dLoc <+: dLoc ++ r ∧ dLoc ++ r ≠ dLoc := by
      refine ⟨List.prefix_append dLoc r, ?_⟩
      simpa [List.self_eq_append_right] using fun h => hr h
    have hrest : ∀ rc0 ∈ rest, rc0.1 ≠ ([] : Loc) :=
      fun rc0 h0 => hne rc0 (List.mem_cons_of_mem _ h0)
    cases h0 : fs.find (dLoc ++ r) with
    | some k =>
      cases hov : opts.overwrite with
      | true =>
        cases k with
        | dirK =>
          simp only [copyFilesPhase, h0, hov]
          exact mutUnder_refl fs dLoc
        | fileK c0 =>
          simp only [copyFilesPhase, h0, hov]
          exact mutUnder_trans (mutUnder_set _ hstrict) (ih _ hrest)
      | false =>
        cases hsk : opts.skip_exist with
        | true =>
          simp only [copyFilesPhase, h0, hov, hsk]
          exact ih fs hrest
        | false =>
          simp only [copyFilesPhase, h0, hov, hsk]
          exact mutUnder_refl fs dLoc
    | none =>
      cases h1 : fs.find (dLoc ++ r).dropLast with
      | some k =>
        cases k with
        | dirK =>
          simp only [copyFilesPhase, h0, h1]
          exact mutUnder_trans (mutUnder_set _ hstrict) (ih _ hrest)
        | fileK c0 =>
          simp only [copyFilesPhase, h0, h1]
          exact mutUnder_refl fs dLoc
      | none =>
        simp only [copyFilesPhase, h0, h1]
        exact mutUnder_refl fs dLoc

theorem copyFilesPhase_ok (opts : CopyOptions) (dLoc : Loc) :
    ∀ (frs : List (Loc × List Nat)) (fs : Fs),
    (∀ rc ∈ frs, rc.1 ≠ ([] : Loc)) →
    (frs.map Prod.fst).Nodup →
    (∀ rc ∈ frs, fs.find (dLoc ++ rc.1) = none) →
    (∀ rc ∈ frs, fs.find (dLoc ++ rc.1).dropLast = some NodeK.dirK) →
    ∃ fs2 : Fs, copyFilesPhase opts fs dLoc frs = Except.ok fs2 ∧
      (∀ l : Loc, fs2.find l = fs.find l ∨
        ∃ rc ∈ frs, l = dLoc ++ rc.1 ∧ fs2.find l = some (NodeK.fileK rc.2)) ∧
      (∀ rc ∈ frs, fs2.find (dLoc ++ rc.1) = some (NodeK.fileK rc.2)) := by
  intro frs
  induction frs with
  | nil =>
    intro fs _ _ _ _
    exact ⟨fs, by simp [copyFilesPhase], fun l => Or.inl rfl, by simp⟩
  | cons rc rest ih =>
    intro fs hne hnd hnone hpar
    obtain ⟨r, c⟩ := rc
    have h0 : fs.find (dLoc ++ r) = none := hnone (r, c) (List.mem_cons_self _ _)
    have h1 : fs.find (dLoc ++ r).dropLast = some NodeK.dirK :=
      hpar (r, c) (List.mem_cons_self _ _)
    set fsx := fs.setFile (dLoc ++ r) c with hfsx
    have hfsxfind : ∀ l : Loc, fsx.find l =
        if dLoc ++ r = l then some (NodeK.fileK c) else fs.find l := by
      intro l; rw [hfsx, Fs.find_setFile]
    simp only [List.map_cons, List.nodup_cons] at hnd
    have hkey : ∀ rc0 ∈ rest, dLoc ++ r ≠ dLoc ++ rc0.1 := by
      intro rc0 h00 he
      exact hnd.1 ((List.append_cancel_left he) ▸ List.mem_map.mpr ⟨rc0, h00, rfl⟩)
    obtain ⟨fs2, hok, hchar, hall⟩ := ih fsx
      (fun rc0 h00 => hne rc0 (List.mem_cons_of_mem _ h00)) hnd.2
      (by
        intro rc0 h00
        rw [hfsxfind, if_neg (hkey rc0 h00)]
        exact hnone rc0 (List.mem_cons_of_mem _ h00))
      (by
        intro rc0 h00
        rw [hfsxfind]
        have hp := hpar rc0 (List.mem_cons_of_mem _ h00)
        by_cases he : dLoc ++ r = (dLoc ++ rc0.1).dropLast
        · rw [← he, h0] at hp
          exact Option.noConfusion hp
        · rw [if_neg he]
          exact hp)
    refine ⟨fs2, ?_, ?_, ?_⟩
    · simp only [copyFilesPhase, h0, h1, ← hfsx]
      exact hok
    · intro l
      rcases hchar l with hc | hc
      · by_cases he : dLoc ++ r = l
        · refine Or.inr ⟨(r, c), List.mem_cons_self _ _, he.symm, ?_⟩
          rw [hc, hfsxfind, if_pos he]
        · refine Or.inl ?_
          rw [hc, hfsxfind, if_neg he]
      · obtain ⟨rc0, h00, he, hv⟩ := hc
        exact Or.inr ⟨rc0, List.mem_cons_of_mem _ h00, he, hv⟩
    · intro rc0 h00
      rcases List.mem_cons.mp h00 with h2 | h2
      · subst h2
        show fs2.find (dLoc ++ r) = some (NodeK.fileK c)
        rcases hchar (dLoc ++ r) with hc | hc
        · rw [hc, hfsxfind, if_pos rfl]
        · obtain ⟨rc1, h01, he, hv⟩ := hc
          exact absurd he (hkey rc1 h01)
      · exact hall rc0 h2

theorem copyFilesPhase_collision (co : Bool) (dLoc : Loc) :
    ∀ (frs : List (Loc × List Nat)) (fs : Fs),
    (∃ rc ∈ frs, (fs.find (dLoc ++ rc.1)).isSome) →
    ∃ (m : String) (fsx : Fs),
      copyFilesPhase ⟨false, false, co⟩ fs dLoc frs = Except.error (m, fsx) := by
  intro frs
  induction frs with
  | nil =>
    intro fs h
    obtain ⟨rc, h0, _⟩ := h
    exact absurd h0 (List.not_mem_nil rc)
  | cons rc0 rest ih =>
    intro fs h
    obtain ⟨r, c⟩ := rc0
    cases h0 : fs.find (dLoc ++ r) with
    | some k =>
      exact ⟨msgFeAlreadyExists, fs, by simp [copyFilesPhase, h0]⟩
    | none =>
      obtain ⟨rc, hmem, hsome⟩ := h
      have hrest : rc ∈ rest := by
        rcases List.mem_cons.mp hmem with h2 | h2
        · subst h2
          rw [h0] at hsome
          exact absurd hsome (by simp)
        · exact h2
      cases h1 : fs.find (dLoc ++ r).dropLast with
      | some k =>
        cases k with
        | dirK =>
          obtain ⟨m, fsx, hres⟩ := ih (fs.setFile (dLoc ++ r) c) ⟨rc, hrest, by
            rw [Fs.find_setFile]
            by_cases he : dLoc ++ r = dLoc ++ rc.1
            · simp [he]
            · rw [if_neg he]
              exact hsome⟩
          exact ⟨m, fsx, by simp [copyFilesPhase, h0, h1, hres]⟩
        | fileK c0 =>
          exact ⟨msgFeFileCopyFail, fs, by simp [copyFilesPhase, h0, h1]⟩
      | none =>
        exact ⟨msgFeFileCopyFail, fs, by simp [copyFilesPhase, h0, h1]⟩

/-! ### Content-listing lemmas -/

theorem prefix_append_drop {base l : Loc} (h : base <+: l) :
    base ++ l.drop base.length = l := by
  obtain ⟨t, rfl⟩ := h
  simp [List.drop_left]

theorem dropLast_append_ne {l1 l2 : Loc} (h : l2 ≠ []) :
    (l1 ++ l2).dropLast = l1 ++ l2.dropLast := by
  rcases List.eq_nil_or_concat l2 with h0 | ⟨L, b, h0⟩
  · exact absurd h0 h
  · subst h0
    simp [List.concat_eq_append, ← List.append_assoc, List.dropLast_concat]

theorem append_ne_left {l r : Loc} (h : r ≠ []) : l ++ r ≠ l := by
  intro he
  exact h (List.append_cancel_left (he.trans (List.append_nil l).symm))

theorem mem_strictUnder {fs : Fs} {base r : Loc} {k : NodeK} :
    (r, k) ∈ fs.strictUnder base ↔ (base ++ r, k) ∈ fs.nodes ∧ r ≠ [] := by
  unfold Fs.strictUnder
  rw [List.mem_filterMap]
  constructor
  · rintro ⟨⟨l0, k0⟩, hmem, hf⟩
    by_cases hc : base <+: l0 ∧ l0 ≠ base
    · rw [if_pos hc] at hf
      have h1 : l0.drop base.length = r := (Prod.mk.injEq .. ▸ Option.some.inj hf).1
      have h2 : k0 = k := (Prod.mk.injEq .. ▸ Option.some.inj hf).2
      have h3 : base ++ r = l0 := by
        rw [← h1]
        exact prefix_append_drop hc.1
      refine ⟨h3 ▸ h2 ▸ hmem, ?_⟩
      rintro rfl
      rw [List.append_nil] at h3
      exact hc.2 h3.symm
    · rw [if_neg hc] at hf
      exact Option.noConfusion hf
  · rintro ⟨hmem, hr⟩
    refine ⟨(base ++ r, k), hmem, ?_⟩
    have hc : base <+: base ++ r ∧ base ++ r ≠ base :=
      ⟨List.prefix_append base r, append_ne_left hr⟩
    rw [if_pos hc]
    simp [List.drop_left]

theorem mem_fileRelsOf {S : List (Loc × NodeK)} {r : Loc} {c : List Nat} :
    (r, c) ∈ fileRelsOf S ↔ (r, NodeK.fileK c) ∈ S := by
  unfold fileRelsOf
  rw [List.mem_filterMap]
  constructor
  · rintro ⟨⟨r0, k0⟩, hmem, hf⟩
    cases k0 with
    | fileK c0 =>
      have h1 : r0 = r := (Prod.mk.injEq .. ▸ Option.some.inj hf).1
      have h2 : c0 = c := (Prod.mk.injEq .. ▸ Option.some.inj hf).2
      exact h1 ▸ h2 ▸ hmem
    | dirK => exact Option.noConfusion hf
  · intro h
    exact ⟨(r, NodeK.fileK c), h, rfl⟩

theorem mem_dirRelsOf {S : List (Loc × NodeK)} {d : Loc} :
    d ∈ dirRelsOf S ↔ (d, NodeK.dirK) ∈ S := by
  unfold dirRelsOf
  rw [List.mem_filterMap]
  constructor
  · rintro ⟨⟨r0, k0⟩, hmem, hf⟩
    cases k0 with
    | fileK c0 => exact Option.noConfusion hf
    | dirK =>
      have h1 : r0 = d := Option.some.inj hf
      exact h1 ▸ hmem
  · intro h
    exact ⟨(d, NodeK.dirK), h, rfl⟩

theorem keys_nodup_unique {S : List (Loc × NodeK)} (h : (S.map Prod.fst).Nodup)
    {r : Loc} {k1 k2 : NodeK} (h1 : (r, k1) ∈ S) (h2 : (r, k2) ∈ S) : k1 = k2 := by
  induction S with
  | nil => exact absurd h1 (List.not_mem_nil _)
  | cons hd tl ih =>
    obtain ⟨r0, k0⟩ := hd
    simp only [List.map_cons, List.nodup_cons] at h
    rcases List.mem_cons.mp h1 with e1 | e1 <;> rcases List.mem_cons.mp h2 with e2 | e2
    · exact (Prod.ext_iff.mp e1).2.trans (Prod.ext_iff.mp e2).2.symm
    · refine absurd (List.mem_map.mpr ⟨(r, k2), e2, ?_⟩) h.1
      exact (Prod.ext_iff.mp e1).1
    · refine absurd (List.mem_map.mpr ⟨(r, k1), e1, ?_⟩) h.1
      exact (Prod.ext_iff.mp e2).1
    · exact ih h.2 e1 e2

theorem strictUnder_keys_nodup {fs : Fs} (hnd : (fs.nodes.map Prod.fst).Nodup) (base : Loc) :
    ((fs.strictUnder base).map Prod.fst).Nodup := by
  unfold Fs.strictUnder
  have haux : ∀ ps : List (Loc × NodeK), (ps.map Prod.fst).Nodup →
      ((ps.filterMap fun lk => if base <+: lk.1 ∧ lk.1 ≠ base
        then some (lk.1.drop base.length, lk.2) else none).map Prod.fst).Nodup := by
    intro ps
    induction ps with
    | nil => intro _; simp
    | cons hd tl ih =>
      intro hn
      obtain ⟨l0, k0⟩ := hd
      simp only [List.map_cons, List.nodup_cons] at hn
      by_cases hc : base <+: l0 ∧ l0 ≠ base
      · simp only [List.filterMap_cons, if_pos hc, List.map_cons, List.nodup_cons]
        refine ⟨?_, ih hn.2⟩
        intro hmem
        obtain ⟨⟨r1, k1⟩, hm1, he1⟩ := List.mem_map.mp hmem
        obtain ⟨⟨l1, k2⟩, hm2, hf⟩ := List.mem_filterMap.mp hm1
        by_cases hc1 : base <+: l1 ∧ l1 ≠ base
        · rw [if_pos hc1] at hf
          have h1 : l1.drop base.length = r1 := (Prod.ext_iff.mp (Option.some.inj hf)).1
          have he2 : r1 = l0.drop base.length := he1
          have h2 : l1 = l0 := by
            have e1 : base ++ l1.drop base.length = l1 := prefix_append_drop hc1.1
            have e0 : base ++ l0.drop base.length = l0 := prefix_append_drop hc.1
            rw [← e1, ← e0, h1, he2]
          exact hn.1 (List.mem_map.mpr ⟨(l1, k2), hm2, h2⟩)
        · rw [if_neg hc1] at hf
          exact Option.noConfusion hf
      · simp only [List.filterMap_cons, if_neg hc]
        exact ih hn.2
  exact haux fs.nodes hnd

theorem fileRels_keys_nodup : ∀ S : List (Loc × NodeK), (S.map Prod.fst).Nodup →
    ((fileRelsOf S).map Prod.fst).Nodup := by
  intro S
  induction S with
  | nil => intro _; simp [fileRelsOf]
  | cons hd tl ih =>
    intro hn
    obtain ⟨r0, k0⟩ := hd
    simp only [List.map_cons, List.nodup_cons] at hn
    cases k0 with
    | dirK =>
      simp only [fileRelsOf, List.filterMap_cons]
      exact ih hn.2
    | fileK c0 =>
      simp only [fileRelsOf, List.filterMap_cons, List.map_cons, List.nodup_cons]
      refine ⟨?_, ih hn.2⟩
      intro hmem
      obtain ⟨⟨r1, c1⟩, hm1, he1⟩ := List.mem_map.mp hmem
      have : (r1, NodeK.fileK c1) ∈ tl := mem_fileRelsOf.mp hm1
      exact hn.1 (List.mem_map.mpr ⟨(r1, NodeK.fileK c1), this, he1⟩)

theorem append_prefix_left {l pre r : Loc} (h : pre <+: r) : l ++ pre <+: l ++ r := by
  obtain ⟨t, rfl⟩ := h
  exact ⟨t, by rw [List.append_assoc]⟩

/-- Ancestors inside the listed content are themselves listed as
directories. -/
theorem strictUnder_ancestor {fs : Fs} {sLoc : Loc} (hwf : fs.wf) {r : Loc} {k : NodeK}
    (hmem : (r, k) ∈ fs.strictUnder sLoc) {pre : Loc} (hpre : pre <+: r)
    (hne0 : pre ≠ []) (hner : pre ≠ r) : (pre, NodeK.dirK) ∈ fs.strictUnder sLoc := by
  obtain ⟨hnodes, hr⟩ := mem_strictUnder.mp hmem
  have hfind : fs.find (sLoc ++ r) = some k := fs.find_of_mem hwf hnodes
  have hp1 : sLoc ++ pre <+: sLoc ++ r := append_prefix_left hpre
  have hp2 : sLoc ++ pre ≠ sLoc ++ r := by
    intro he
    exact hner (List.append_cancel_left he)
  have := fs.wf_find_prefix hwf (sLoc ++ r) hfind (sLoc ++ pre) hp1 hp2
  exact mem_strictUnder.mpr ⟨fs.mem_of_find_some this, hne0⟩

/-! ### `feDirPhases` success characterisation -/

theorem feDirPhases_ok (opts : CopyOptions) {fs : Fs} {sLoc dLoc : Loc} (hwf : fs.wf)
    (hd : fs.find dLoc = some NodeK.dirK)
    (hnc : ∀ rk ∈ fs.strictUnder sLoc, fs.find (dLoc ++ rk.1) = none) :
    ∃ fs2 : Fs,
      feDirPhases opts fs dLoc (dirRelsOf (fs.strictUnder sLoc))
        (fileRelsOf (fs.strictUnder sLoc)) = Except.ok fs2 ∧
      (∀ (r : Loc) (c : List Nat), (r, NodeK.fileK c) ∈ fs.strictUnder sLoc →
        fs2.find (dLoc ++ r) = some (NodeK.fileK c)) ∧
      (∀ r : Loc, (r, NodeK.dirK) ∈ fs.strictUnder sLoc →
        fs2.find (dLoc ++ r) = some NodeK.dirK) ∧
      (∀ l : Loc, (∀ rk ∈ fs.strictUnder sLoc, l ≠ dLoc ++ rk.1) → fs2.find l = fs.find l) := by
  set S := fs.strictUnder sLoc with hS
  have hSnd : (S.map Prod.fst).Nodup := strictUnder_keys_nodup hwf.1 sLoc
  -- a location of the shape dLoc ++ pre, with pre a non-empty prefix of a
  -- listed directory, is itself a listed key
  have hpreS : ∀ d ∈ dirRelsOf S, ∀ pre : Loc, pre <+: d → pre ≠ [] →
      (pre, NodeK.dirK) ∈ S := by
    intro d hd0 pre hpre hne
    have hdm : (d, NodeK.dirK) ∈ S := mem_dirRelsOf.mp hd0
    by_cases he : pre = d
    · exact he ▸ hdm
    · exact strictUnder_ancestor hwf hdm hpre hne he
  obtain ⟨fs1, hok1, hchar1, hall1⟩ := createDirsPhase_ok dLoc (dirRelsOf S) fs hd (by
    intro d hd0 pre hpre hne
    exact Or.inl (hnc (pre, NodeK.dirK) (hpreS d hd0 pre hpre hne)))
  -- changed locations of the directory phase are listed keys
  have hchange1 : ∀ l : Loc, fs1.find l = fs.find l ∨
      ∃ rk ∈ S, l = dLoc ++ rk.1 := by
    intro l
    rcases hchar1 l with hc | hc
    · exact Or.inl hc
    · obtain ⟨_, _, d, hd0, pre, hp1, hp2, hp3⟩ := hc
      exact Or.inr ⟨(pre, NodeK.dirK), hpreS d hd0 pre hp1 hp2, hp3⟩
  obtain ⟨fs2, hok2, hchar2, hall2⟩ := copyFilesPhase_ok opts dLoc (fileRelsOf S) fs1
    (by
      intro rc hrc
      exact (mem_strictUnder.mp (mem_fileRelsOf.mp hrc)).2)
    (fileRels_keys_nodup S hSnd)
    (by
      intro rc hrc
      have hm : (rc.1, NodeK.fileK rc.2) ∈ S := mem_fileRelsOf.mp hrc
      rcases hchar1 (dLoc ++ rc.1) with hc | hc
      · rw [hc]
        exact hnc (rc.1, NodeK.fileK rc.2) hm
      · obtain ⟨_, _, d, hd0, pre, hp1, hp2, hp3⟩ := hc
        have he : rc.1 = pre := List.append_cancel_left hp3
        have hpm : (pre, NodeK.dirK) ∈ S := hpreS d hd0 pre hp1 hp2
        have := keys_nodup_unique hSnd (he ▸ hm) hpm
        exact NodeK.noConfusion this)
    (by
      intro rc hrc
      have hm : (rc.1, NodeK.fileK rc.2) ∈ S := mem_fileRelsOf.mp hrc
      have hne : rc.1 ≠ [] := (mem_strictUnder.mp hm).2
      rw [dropLast_append_ne hne]
      by_cases he : rc.1.dropLast = []
      · rw [he, List.append_nil]
        rcases hchar1 dLoc with hc | hc
        · rw [hc]; exact hd
        · exact hc.1
      · have hpp : rc.1.dropLast <+: rc.1 := List.dropLast_prefix rc.1
        have hppne : rc.1.dropLast ≠ rc.1 := by
          intro hx
          have := congrArg List.length hx
          rw [List.length_dropLast] at this
          rcases List.eq_nil_or_concat rc.1 with h9 | ⟨L, b, h9⟩
          · exact hne h9
          · rw [h9] at this
            simp at this
        have hmem : (rc.1.dropLast, NodeK.dirK) ∈ S :=
          strictUnder_ancestor hwf hm hpp he hppne
        exact hall1 rc.1.dropLast (mem_dirRelsOf.mpr hmem))
  refine ⟨fs2, ?_, ?_, ?_, ?_⟩
  · simp only [feDirPhases, hok1]
    exact hok2
  · intro r c hm
    exact hall2 (r, c) (mem_fileRelsOf.mpr hm)
  · intro r hm
    have h1 : fs1.find (dLoc ++ r) = some NodeK.dirK := hall1 r (mem_dirRelsOf.mpr hm)
    rcases hchar2 (dLoc ++ r) with hc | hc
    · rw [hc]; exact h1
    · obtain ⟨rc, hrc, he, _⟩ := hc
      have hmf : (rc.1, NodeK.fileK rc.2) ∈ S := mem_fileRelsOf.mp hrc
      have hke : r = rc.1 := List.append_cancel_left he
      have := keys_nodup_unique hSnd (hke ▸ hmf) hm
      exact NodeK.noConfusion this
  · intro l hl
    have h2 : fs2.find l = fs1.find l := by
      rcases hchar2 l with hc | hc
      · exact hc
      · obtain ⟨rc, hrc, he, _⟩ := hc
        exact absurd he (hl (rc.1, NodeK.fileK rc.2) (mem_fileRelsOf.mp hrc))
    rcases hchange1 l with hc | hc
    · rw [h2, hc]
    · obtain ⟨rk, hrk, he⟩ := hc
      exact absurd he (hl rk hrk)

/-! ### Classification and copy-operation lemmas -/

theorem isFile_true_of {w : World} {p : Path} {l : Loc} {c : List Nat}
    (h1 : w.resolve p = some l) (h2 : w.fs.find l = some (NodeK.fileK c)) :
    w.isFile p = true := by
  simp [World.isFile, h1, h2]

theorem isFile_false_of_dir {w : World} {p : Path} {l : Loc}
    (h1 : w.resolve p = some l) (h2 : w.fs.find l = some NodeK.dirK) :
    w.isFile p = false := by
  simp [World.isFile, h1, h2]

theorem isDir_true_of {w : World} {p : Path} {l : Loc}
    (h1 : w.resolve p = some l) (h2 : w.fs.find l = some NodeK.dirK) :
    w.isDir p = true := by
  simp [World.isDir, h1, h2]

theorem stdCopy_char {w : World} {src dst : Path} {fs1 : Fs}
    (h : stdCopy w src dst = Except.ok fs1) :
    ∃ (dl : Loc) (c : List Nat), w.resolve dst = some dl ∧
      w.fs.find dl ≠ some NodeK.dirK ∧ fs1 = w.fs.setFile dl c := by
  unfold stdCopy at h
  cases h1 : w.resolve src with
  | none =>
    simp only [h1] at h
    exact Except.noConfusion h
  | some sl =>
    simp only [h1] at h
    cases h2 : w.fs.find sl with
    | none =>
      simp only [h2] at h
      exact Except.noConfusion h
    | some k =>
      cases k with
      | dirK =>
        simp only [h2] at h
        exact Except.noConfusion h
      | fileK c =>
        simp only [h2] at h
        cases h3 : w.resolve dst with
        | none =>
          simp only [h3] at h
          exact Except.noConfusion h
        | some dl =>
          simp only [h3] at h
          cases h4 : w.fs.find dl with
          | some k2 =>
            cases k2 with
            | dirK =>
              simp only [h4] at h
              exact Except.noConfusion h
            | fileK c0 =>
              simp only [h4] at h
              exact ⟨dl, c, rfl, by simp [h4], (Except.ok.inj h).symm⟩
          | none =>
            simp only [h4] at h
            cases h5 : w.fs.find dl.dropLast with
            | none =>
              simp only [h5] at h
              exact Except.noConfusion h
            | some k2 =>
              cases k2 with
              | fileK c0 =>
                simp only [h5] at h
                exact Except.noConfusion h
              | dirK =>
                simp only [h5] at h
                exact ⟨dl, c, rfl, by simp [h4], (Except.ok.inj h).symm⟩

/-- Successful `std::fs::copy` of an existing regular file to a
destination that resolves and is not a directory. -/
theorem stdCopy_ok {w : World} {src dst : Path} {sl dl : Loc} {c : List Nat}
    (h1 : w.resolve src = some sl) (h2 : w.fs.find sl = some (NodeK.fileK c))
    (h3 : w.resolve dst = some dl) (h4 : w.fs.find dl ≠ some NodeK.dirK)
    (h5 : w.fs.find dl.dropLast = some NodeK.dirK) :
    stdCopy w src dst = Except.ok (w.fs.setFile dl c) := by
  unfold stdCopy
  simp only [h1, h2, h3]
  cases h6 : w.fs.find dl with
  | none => simp only [h6, h5]
  | some k =>
    cases k with
    | fileK c0 => simp only [h6]
    | dirK => exact absurd h6 h4

/-- Components that are all named segments come from a list of names. -/
theorem allNormal_names {cs : List Component}
    (h : ∀ cc ∈ cs, cc ≠ Component.parentDir) :
    ∃ names : List String, cs = names.map Component.normal := by
  induction cs with
  | nil => exact ⟨[], rfl⟩
  | cons c rest ih =>
    obtain ⟨names, hn⟩ := ih fun cc hm => h cc (List.mem_cons_of_mem c hm)
    cases c with
    | parentDir => exact absurd rfl (h Component.parentDir (List.mem_cons_self _ _))
    | normal s => exact ⟨s :: names, by rw [List.map_cons, hn]⟩

theorem join_absolute {p q : Path} (h : p.absolute = true) : (p.join q).absolute = true := by
  unfold Path.join
  cases hq : q.absolute with
  | true => simp [hq]
  | false => simp [hq, h]

theorem resolveSource_of_rel {fs_ : PrivateFS} {src : Path}
    (hrf : fs_.ran_from.absolute = true) (h : src.isRelative = true) :
    fs_.resolveSource (fs_.ran_from.join src) = fs_.resolveSource src := by
  unfold PrivateFS.resolveSource
  have h2 : (fs_.ran_from.join src).isRelative = false := by
    unfold Path.isRelative
    rw [join_absolute hrf]
    rfl
  rw [h, h2]
  simp

/-- The chain condition needed to walk an existing directory: every
non-empty prefix of `base` is an existing directory. -/
theorem chain_of_root {fs : Fs} {base : Loc} (hwf : fs.wf)
    (hroot : fs.find base = some NodeK.dirK) :
    ∀ pre : Loc, pre <+: base → pre ≠ [] → fs.find ([] ++ pre) = some NodeK.dirK := by
  intro pre hpre _
  rw [List.nil_append]
  by_cases he : pre = base
  · exact he ▸ hroot
  · exact fs.wf_find_prefix hwf base hroot pre hpre he

/-- `create_dir_all` on an absolute path below an existing directory
only mutates strictly below that directory. -/
theorem createDirAll_mut {w : World} {base : Loc} {names : List String} (hwf : w.fs.wf)
    (hroot : w.fs.find base = some NodeK.dirK) :
    mutUnder w.fs (resFs (createDirAll w ⟨true, (base ++ names).map Component.normal⟩)) base := by
  unfold createDirAll
  have hstart : w.startLoc ⟨true, (base ++ names).map Component.normal⟩ = [] := rfl
  rw [hstart]
  rw [List.map_append]
  rw [cdaa_skip base w.fs [] (names.map Component.normal) (chain_of_root hwf hroot)]
  rw [List.nil_append]
  exact cdaa_normal_frame names w.fs base

/-- `fs_extra::dir::copy` with `content_only` into an existing
directory only mutates strictly below the destination. -/
theorem feDstLoc_co (ov sk : Bool) (src : Path) (dl0 : Loc) :
    feDstLoc ⟨ov, sk, true⟩ src dl0 = some dl0 := by
  simp [feDstLoc]

theorem feDirCopy_mut (ov sk : Bool) (w : World) (src dst : Path) {dLoc : Loc}
    (hresd : w.resolve dst = some dLoc) (hd : w.fs.find dLoc = some NodeK.dirK) :
    mutUnder w.fs (resFs (feDirCopy ⟨ov, sk, true⟩ w src dst)) dLoc := by
  unfold feDirCopy
  cases h1 : w.resolve src with
  | none =>
    simp only [h1]
    exact mutUnder_refl _ _
  | some sLoc =>
    simp only [h1]
    cases h2 : w.fs.find sLoc with
    | none =>
      simp only [h2]
      exact mutUnder_refl _ _
    | some k =>
      cases k with
      | fileK c =>
        simp only [h2]
        exact mutUnder_refl _ _
      | dirK =>
        simp only [h2, hresd, feDstLoc_co, hd]
        unfold feDirPhases
        cases h3 : createDirsPhase w.fs dLoc (dirRelsOf (w.fs.strictUnder sLoc)) with
        | error e =>
          have := createDirsPhase_frame dLoc (dirRelsOf (w.fs.strictUnder sLoc)) w.fs
          rw [h3] at this
          simp only [h3]
          exact this
        | ok fs1 =>
          have hm1 := createDirsPhase_frame dLoc (dirRelsOf (w.fs.strictUnder sLoc)) w.fs
          rw [h3] at hm1
          have hm2 := copyFilesPhase_frame ⟨ov, sk, true⟩ dLoc
            (fileRelsOf (w.fs.strictUnder sLoc)) fs1 (by
              intro rc hrc
              exact (mem_strictUnder.mp (mem_fileRelsOf.mp hrc)).2)
          simp only [h3]
          exact mutUnder_trans hm1 hm2

theorem feDirCopy_mut_incl (ov sk : Bool) (w : World) (src dst : Path) :
    ∀ l : Loc, (∀ dLoc : Loc, w.resolve dst = some dLoc → ¬(dLoc <+: l)) →
      (resFs (feDirCopy ⟨ov, sk, true⟩ w src dst)).find l = w.fs.find l := by
  intro l hl
  unfold feDirCopy
  cases h1 : w.resolve src with
  | none => simp only [h1]; rfl
  | some sLoc =>
    simp only [h1]
    cases h2 : w.fs.find sLoc with
    | none => simp only [h2]; rfl
    | some k =>
      cases k with
      | fileK c => simp only [h2]; rfl
      | dirK =>
        simp only [h2]
        cases h3 : w.resolve dst with
        | none => simp only [h3]; rfl
        | some dLoc =>
          simp only [h3, feDstLoc_co]
          have hnot : ¬(dLoc <+: l) := hl dLoc h3
          have hstr : ¬(dLoc <+: l ∧ l ≠ dLoc) := fun hx => hnot hx.1
          cases h4 : w.fs.find dLoc with
          | some k2 =>
            cases k2 with
            | fileK c0 =>
              simp only [h4]
              cases hS : (w.fs.strictUnder sLoc).isEmpty <;> simp [hS, resFs]
            | dirK =>
              simp only [h4]
              unfold feDirPhases
              cases h5 : createDirsPhase w.fs dLoc (dirRelsOf (w.fs.strictUnder sLoc)) with
              | error e =>
                have := createDirsPhase_frame dLoc (dirRelsOf (w.fs.strictUnder sLoc)) w.fs
                rw [h5] at this
                simp only [h5]
                exact this l hstr
              | ok fs1 =>
                have hm1 := createDirsPhase_frame dLoc (dirRelsOf (w.fs.strictUnder sLoc)) w.fs
                rw [h5] at hm1
                have hm2 := copyFilesPhase_frame ⟨ov, sk, true⟩ dLoc
                  (fileRelsOf (w.fs.strictUnder sLoc)) fs1 (by
                    intro rc hrc
                    exact (mem_strictUnder.mp (mem_fileRelsOf.mp hrc)).2)
                simp only [h5]
                exact (mutUnder_trans hm1 hm2) l hstr
          | none =>
            simp only [h4]
            cases h5 : w.fs.find dLoc.dropLast with
            | none => simp only [h5]; rfl
            | some k2 =>
              cases k2 with
              | fileK c0 => simp only [h5]; rfl
              | dirK =>
                simp only [h5]
                have hb : (w.fs.addDir dLoc).find l = w.fs.find l := by
                  rw [Fs.find_addDir]
                  have hne : dLoc ≠ l := by
                    intro he
                    exact hnot (he ▸ List.prefix_rfl)
                  simp [hne]
                unfold feDirPhases
                cases h6 : createDirsPhase (w.fs.addDir dLoc) dLoc
                    (dirRelsOf (w.fs.strictUnder sLoc)) with
                | error e =>
                  have := createDirsPhase_frame dLoc (dirRelsOf (w.fs.strictUnder sLoc))
                    (w.fs.addDir dLoc)
                  rw [h6] at this
                  simp only [h6]
                  exact (this l hstr).trans hb
                | ok fs1 =>
                  have hm1 := createDirsPhase_frame dLoc (dirRelsOf (w.fs.strictUnder sLoc))
                    (w.fs.addDir dLoc)
                  rw [h6] at hm1
                  have hm2 := copyFilesPhase_frame ⟨ov, sk, true⟩ dLoc
                    (fileRelsOf (w.fs.strictUnder sLoc)) fs1 (by
                      intro rc hrc
                      exact (mem_strictUnder.mp (mem_fileRelsOf.mp hrc)).2)
                  simp only [h6]
                  exact ((mutUnder_trans hm1 hm2) l hstr).trans hb

/-- Success of `fs_extra::dir::copy` with `content_only` when nothing
collides: the source content lands below the destination, everything
else is untouched. -/
theorem feDirCopy_ok (ov sk : Bool) {w : World} {src dst : Path} {sLoc dLooc : Loc}
    (hwf : w.fs.wf)
    (hres : w.resolve src = some sLoc) (hs : w.fs.find sLoc = some NodeK.dirK)
    (hresd : w.resolve dst = some dLooc) (hd : w.fs.find dLooc = some NodeK.dirK)
    (hnc : ∀ rk ∈ w.fs.strictUnder sLoc, w.fs.find (dLooc ++ rk.1) = none) :
    ∃ fs2 : Fs, feDirCopy ⟨ov, sk, true⟩ w src dst = Except.ok fs2 ∧
      (∀ (r : Loc) (c : List Nat), (r, NodeK.fileK c) ∈ w.fs.strictUnder sLoc →
        fs2.find (dLooc ++ r) = some (NodeK.fileK c)) ∧
      (∀ r : Loc, (r, NodeK.dirK) ∈ w.fs.strictUnder sLoc →
        fs2.find (dLooc ++ r) = some NodeK.dirK) ∧
      (∀ l : Loc, (∀ rk ∈ w.fs.strictUnder sLoc, l ≠ dLooc ++ rk.1) →
        fs2.find l = w.fs.find l) := by
  obtain ⟨fs2, hok, hfiles, hdirs, hframe⟩ := feDirPhases_ok ⟨ov, sk, true⟩ hwf hd hnc
  refine ⟨fs2, ?_, hfiles, hdirs, hframe⟩
  unfold feDirCopy
  simp only [hres, hs, hresd, feDstLoc_co, hd]
  exact hok

/-- Failure of `fs_extra::dir::copy` with the default `overwrite =
skip_exist = false` when some source file collides with an existing
destination entry. -/
theorem feDirCopy_collision {w : World} {src dst : Path} {sLoc dLoc : Loc}
    (hres : w.resolve src = some sLoc) (hs : w.fs.find sLoc = some NodeK.dirK)
    (hresd : w.resolve dst = some dLoc) (hd : w.fs.find dLoc = some NodeK.dirK)
    (hcoll : ∃ rc ∈ fileRelsOf (w.fs.strictUnder sLoc),
      (w.fs.find (dLoc ++ rc.1)).isSome = true) :
    ∃ (m : String) (fsx : Fs),
      feDirCopy ⟨false, false, true⟩ w src dst = Except.error (m, fsx) := by
  unfold feDirCopy
  simp only [hres, hs, hresd, feDstLoc_co, hd]
  unfold feDirPhases
  cases h3 : createDirsPhase w.fs dLoc (dirRelsOf (w.fs.strictUnder sLoc)) with
  | error e =>
    simp only [h3]
    exact ⟨e.1, e.2, rfl⟩
  | ok fs1 =>
    obtain ⟨rc, hrc, hsome⟩ := hcoll
    cases hv : w.fs.find (dLoc ++ rc.1) with
    | none =>
      rw [hv] at hsome
      exact Bool.noConfusion hsome
    | some v =>
      have hv1 : fs1.find (dLoc ++ rc.1) = some v :=
        createDirsPhase_mono dLoc _ w.fs fs1 h3 _ v hv
      obtain ⟨m, fsx, hres2⟩ := copyFilesPhase_collision true dLoc
        (fileRelsOf (w.fs.strictUnder sLoc)) fs1 ⟨rc, hrc, by rw [hv1]; rfl⟩
      simp only [h3]
      exact ⟨m, fsx, hres2⟩

/-! ### Claim theorems -/

/-- C3: an `include` call with an absolute destination path, on a
source that resolves to an existing file or directory, panics with the
relative-destination usage error and leaves the world (hence the
filesystem) unchanged: the outcome carries the unmodified input world,
so no directory is created and no file is copied before the failure. -/
theorem c3_absolute_destination_usage_error (fs_ : PrivateFS) (w : World) (src dst : Path)
    (habs : dst.absolute = true)
    (hsrc : w.isFile (fs_.resolveSource src) = true ∨ w.isDir (fs_.resolveSource src) = true) :
    fs_.include w src (some dst) = IncResult.usage w msgPanicRelFile ∨
      fs_.include w src (some dst) = IncResult.usage w msgPanicRelDir := by
  have hrel : dst.isRelative = false := by
    unfold Path.isRelative
    rw [habs]
    rfl
  cases hf : w.isFile (fs_.resolveSource src) with
  | true =>
    left
    simp [PrivateFS.include, PrivateFS.include_file, hf, hrel]
  | false =>
    right
    rcases hsrc with h | h
    · rw [hf] at h
      exact Bool.noConfusion h
    · simp [PrivateFS.include, PrivateFS.include_directory, hf, h, hrel]

/-- Witness for C3 at a concrete world. -/
theorem c3_witness :
    exSandbox.include exW (absPath ["f"]) (some (absPath ["zz"])) =
        IncResult.usage exW msgPanicRelFile ∨
      exSandbox.include exW (absPath ["f"]) (some (absPath ["zz"])) =
        IncResult.usage exW msgPanicRelDir :=
  c3_absolute_destination_usage_error exSandbox exW (absPath ["f"]) (absPath ["zz"])
    (by decide) (by decide)

/-- C4: an `include` call whose resolved source is neither an existing
regular file nor an existing directory panics with the usage error
about the source kind — a fatal report distinct from the recoverable
staging outcome — and leaves the world unchanged. -/
theorem c4_nonexistent_source_usage_error (fs_ : PrivateFS) (w : World) (src : Path)
    (dstOpt : Option Path)
    (hf : w.isFile (fs_.resolveSource src) = false)
    (hd : w.isDir (fs_.resolveSource src) = false) :
    fs_.include w src dstOpt = IncResult.usage w msgPanicNeither := by
  simp [PrivateFS.include, hf, hd]

/-- Witness for C4 at a concrete world. -/
theorem c4_witness :
    exSandbox.include exW (absPath ["nope"]) none = IncResult.usage exW msgPanicNeither :=
  c4_nonexistent_source_usage_error exSandbox exW (absPath ["nope"]) none
    (by decide) (by decide)

/-- C2 counterexample: a failing run of `temporary()` (the working
directory switch fails with `EACCES`) returns an error whose context is
`none` — the underlying I/O cause is not wrapped with a description of
the failing setup step. -/
theorem c2_counterexample :
    PrivateFS.temporary exW ⟨none, none, ["tmpX"], some "EACCES"⟩ =
      Except.error ⟨none, "EACCES"⟩ := by
  rfl

/-- C2 (amended): `rooted()` wraps directory-creation and
working-directory-switch failures with a contextual description of the
failing step (its initial working-directory capture is propagated
bare); `temporary()` propagates every underlying I/O cause without any
added context. -/
theorem c2_error_context (w : World) (env : IOEnv) (root : Path) :
    (∀ e : SetupErr, PrivateFS.temporary w env = Except.error e → e.context = none) ∧
    (∀ e : SetupErr, PrivateFS.rooted w env root = Except.error e →
      (e.context = none ∧ env.currentDirErr = some e.cause) ∨
        e.context = some ctxCreateRoot ∨ e.context = some ctxSetCwd) := by
  constructor
  · intro e h
    unfold PrivateFS.temporary at h
    cases h1 : env.currentDirErr with
    | some e0 =>
      simp only [h1] at h
      cases h
      rfl
    | none =>
      simp only [h1] at h
      cases h2 : env.tempdirErr with
      | some e0 =>
        simp only [h2] at h
        cases h
        rfl
      | none =>
        simp only [h2] at h
        cases h3 : w.fs.find env.tmpLoc.dropLast with
        | none =>
          simp only [h3] at h
          cases h
          rfl
        | some k =>
          cases k with
          | fileK c =>
            simp only [h3] at h
            cases h
            rfl
          | dirK =>
            simp only [h3] at h
            cases h4 : w.fs.find env.tmpLoc with
            | some k2 =>
              simp only [h4] at h
              cases h
              rfl
            | none =>
              simp only [h4] at h
              cases h5 : env.setCwdErr with
              | some e0 =>
                simp only [h5] at h
                cases h
                rfl
              | none =>
                simp only [h5] at h
                exact Except.noConfusion h
  · intro e h
    unfold PrivateFS.rooted at h
    cases h1 : env.currentDirErr with
    | some e0 =>
      simp only [h1] at h
      cases h
      exact Or.inl ⟨rfl, by simp [h1]⟩
    | none =>
      simp only [h1] at h
      cases h2 : createDirAll w root with
      | error e1 =>
        simp only [h2] at h
        cases h
        exact Or.inr (Or.inl rfl)
      | ok fs1 =>
        simp only [h2] at h
        cases h3 : env.setCwdErr with
        | some e0 =>
          simp only [h3] at h
          cases h
          exact Or.inr (Or.inr rfl)
        | none =>
          simp only [h3] at h
          cases h4 : resolveSteps fs1 (w.startLoc root) root.comps with
          | none =>
            simp only [h4] at h
            cases h
            exact Or.inr (Or.inr rfl)
          | some loc =>
            simp only [h4] at h
            cases h5 : fs1.find loc with
            | none =>
              simp only [h5] at h
              cases h
              exact Or.inr (Or.inr rfl)
            | some k =>
              cases k with
              | fileK c =>
                simp only [h5] at h
                cases h
                exact Or.inr (Or.inr rfl)
              | dirK =>
                simp only [h5] at h
                exact Except.noConfusion h

/-- Witness for C2's amended statement at a concrete failing run of
`temporary()`. -/
theorem c2_witness : (⟨none, "EACCES"⟩ : SetupErr).context = none :=
  (c2_error_context exW ⟨none, none, ["tmpX"], some "EACCES"⟩ (absPath ["r"])).1
    ⟨none, "EACCES"⟩ (by rfl)

/-- C8: for every successful run of either constructor, `ran_from` is
the absolute path of the working directory captured before any
mutation, and afterwards the process working directory is the location
denoted by `directory.path()` (for `rooted`, with an absolute root, as
supplied by the caller). -/
theorem c8_constructor_invariants (w : World) (env : IOEnv) (root : Path)
    (hwf : w.fs.wf) (habs : root.absolute = true) :
    (∀ (sb : PrivateFS) (w2 : World), PrivateFS.temporary w env = Except.ok (sb, w2) →
      sb.ran_from = absPath w.cwd ∧ w2.resolve sb.directory.pathOf = some w2.cwd) ∧
    (∀ (sb : PrivateFS) (w2 : World), PrivateFS.rooted w env root = Except.ok (sb, w2) →
      sb.ran_from = absPath w.cwd ∧ w2.resolve sb.directory.pathOf = some w2.cwd) := by
  constructor
  · intro sb w2 h
    unfold PrivateFS.temporary at h
    cases h1 : env.currentDirErr with
    | some e0 =>
      simp only [h1] at h
      exact Except.noConfusion h
    | none =>
      simp only [h1] at h
      cases h2 : env.tempdirErr with
      | some e0 =>
        simp only [h2] at h
        exact Except.noConfusion h
      | none =>
        simp only [h2] at h
        cases h3 : w.fs.find env.tmpLoc.dropLast with
        | none =>
          simp only [h3] at h
          exact Except.noConfusion h
        | some k =>
          cases k with
          | fileK c =>
            simp only [h3] at h
            exact Except.noConfusion h
          | dirK =>
            simp only [h3] at h
            cases h4 : w.fs.find env.tmpLoc with
            | some k2 =>
              simp only [h4] at h
              exact Except.noConfusion h
            | none =>
              simp only [h4] at h
              cases h5 : env.setCwdErr with
              | some e0 =>
                simp only [h5] at h
                exact Except.noConfusion h
              | none =>
                simp only [h5] at h
                have hp := Except.ok.inj h
                have hsb : sb =
                    ⟨absPath w.cwd, TestWorkingDirectory.temporary (absPath env.tmpLoc)⟩ :=
                  ((Prod.ext_iff.mp hp).1).symm
                have hw2 : w2 = ⟨w.fs.addDir env.tmpLoc, env.tmpLoc⟩ :=
                  ((Prod.ext_iff.mp hp).2).symm
                subst hsb
                subst hw2
                refine ⟨rfl, ?_⟩
                show World.resolve ⟨w.fs.addDir env.tmpLoc, env.tmpLoc⟩
                  (absPath env.tmpLoc) = some env.tmpLoc
                unfold World.resolve
                rw [startLoc_absolute _ rfl, absPath_comps]
                have hchain : ∀ pre : Loc, pre <+: env.tmpLoc → pre ≠ env.tmpLoc →
                    (w.fs.addDir env.tmpLoc).find ([] ++ pre) = some NodeK.dirK := by
                  intro pre hpre hne
                  rw [List.nil_append, Fs.find_addDir]
                  have hne2 : env.tmpLoc ≠ pre := fun he => hne he.symm
                  rw [if_neg hne2]
                  rcases List.eq_nil_or_concat env.tmpLoc with h9 | ⟨L, b, h9⟩
                  · rw [h9] at hpre
                    exact absurd (List.prefix_nil.mp hpre) (by
                      intro hx
                      exact hne (hx.trans h9.symm))
                  · rw [h9, List.concat_eq_append] at hpre
                    have hL : w.fs.find L = some NodeK.dirK := by
                      have hdl : env.tmpLoc.dropLast = L := by
                        rw [h9, List.concat_eq_append, List.dropLast_concat]
                      rwa [hdl] at h3
                    rcases List.prefix_concat_iff.mp hpre with h0 | h0
                    · rw [h9, List.concat_eq_append] at hne
                      exact absurd h0 hne
                    · by_cases he : pre = L
                      · exact he ▸ hL
                      · exact w.fs.wf_find_prefix hwf L hL pre h0 he
                have := resolveSteps_of_chain (w.fs.addDir env.tmpLoc) env.tmpLoc [] hchain
                simpa using this
  · intro sb w2 h
    unfold PrivateFS.rooted at h
    cases h1 : env.currentDirErr with
    | some e0 =>
      simp only [h1] at h
      exact Except.noConfusion h
    | none =>
      simp only [h1] at h
      cases h2 : createDirAll w root with
      | error e1 =>
        simp only [h2] at h
        exact Except.noConfusion h
      | ok fs1 =>
        simp only [h2] at h
        cases h3 : env.setCwdErr with
        | some e0 =>
          simp only [h3] at h
          exact Except.noConfusion h
        | none =>
          simp only [h3] at h
          cases h4 : resolveSteps fs1 (w.startLoc root) root.comps with
          | none =>
            simp only [h4] at h
            exact Except.noConfusion h
          | some loc =>
            simp only [h4] at h
            cases h5 : fs1.find loc with
            | none =>
              simp only [h5] at h
              exact Except.noConfusion h
            | some k =>
              cases k with
              | fileK c =>
                simp only [h5] at h
                exact Except.noConfusion h
              | dirK =>
                simp only [h5] at h
                have hp := Except.ok.inj h
                have hsb : sb = ⟨absPath w.cwd, TestWorkingDirectory.rooted root⟩ :=
                  ((Prod.ext_iff.mp hp).1).symm
                have hw2 : w2 = ⟨fs1, loc⟩ := ((Prod.ext_iff.mp hp).2).symm
                subst hsb
                subst hw2
                refine ⟨rfl, ?_⟩
                show World.resolve ⟨fs1, loc⟩ root = some loc
                unfold World.resolve
                rw [startLoc_absolute _ habs]
                rw [startLoc_absolute _ habs] at h4
                exact h4

/-- Witness for C8 at a concrete successful `temporary()` run. -/
theorem c8_witness :
    (⟨absPath ["sb"], TestWorkingDirectory.temporary (absPath ["tmpX"])⟩ : PrivateFS).ran_from =
        absPath exW.cwd ∧
      (⟨exFs.addDir ["tmpX"], ["tmpX"]⟩ : World).resolve
          (⟨absPath ["sb"],
            TestWorkingDirectory.temporary (absPath ["tmpX"])⟩ : PrivateFS).directory.pathOf =
        some (⟨exFs.addDir ["tmpX"], ["tmpX"]⟩ : World).cwd :=
  (c8_constructor_invariants exW exEnv (absPath ["r"]) (by decide) (by decide)).1
    ⟨absPath ["sb"], TestWorkingDirectory.temporary (absPath ["tmpX"])⟩
    ⟨exFs.addDir ["tmpX"], ["tmpX"]⟩ (by rfl)

/-- A path that resolves to an existing regular file always has an
extractable file name: an empty path or one ending in `..` can only
resolve to a directory. -/
theorem isFile_fileName {w : World} {p : Path} (hwf : w.fs.wf)
    (hcwd : w.fs.find w.cwd = some NodeK.dirK) (h : w.isFile p = true) :
    p.fileName.isSome = true := by
  unfold World.isFile at h
  cases h1 : w.resolve p with
  | none =>
    simp only [h1] at h
    exact Bool.noConfusion h
  | some l =>
    simp only [h1] at h
    cases h2 : w.fs.find l with
    | none =>
      simp only [h2] at h
      exact Bool.noConfusion h
    | some k =>
      cases k with
      | dirK =>
        simp only [h2] at h
        exact Bool.noConfusion h
      | fileK c =>
        have hstart : w.fs.find (w.startLoc p) = some NodeK.dirK := by
          unfold World.startLoc
          cases hab : p.absolute with
          | true => simpa using hwf.2.1
          | false => simpa using hcwd
        rcases List.eq_nil_or_concat p.comps with h0 | ⟨L, cc, h0⟩
        · unfold World.resolve at h1
          rw [h0] at h1
          simp only [resolveSteps] at h1
          have hl : w.startLoc p = l := Option.some.inj h1
          rw [hl, h2] at hstart
          exact NodeK.noConfusion (Option.some.inj hstart)
        · cases cc with
          | normal s =>
            unfold Path.fileName
            rw [h0, List.concat_eq_append, List.getLast?_concat]
            rfl
          | parentDir =>
            unfold World.resolve at h1
            rw [h0, List.concat_eq_append, resolveSteps_append] at h1
            cases h3 : resolveSteps w.fs (w.startLoc p) L with
            | none =>
              rw [h3] at h1
              exact Option.noConfusion h1
            | some mid =>
              rw [h3] at h1
              simp only [Option.bind] at h1
              cases h4 : w.fs.find mid with
              | none => simp [resolveSteps, h4] at h1
              | some k2 =>
                cases k2 with
                | fileK c2 => simp [resolveSteps, h4] at h1
                | dirK =>
                  simp only [resolveSteps, h4] at h1
                  have hl : mid.dropLast = l := Option.some.inj h1
                  rcases List.eq_nil_or_concat mid with h9 | ⟨M, b, h9⟩
                  · have : l = ([] : Loc) := by
                      rw [← hl, h9]
                      rfl
                    rw [this, hwf.2.1] at h2
                    exact NodeK.noConfusion (Option.some.inj h2)
                  · have hmne : mid ≠ [] := by
                      rw [h9, List.concat_eq_append]
                      simp
                    have := w.fs.wf_find_parent hwf h4 hmne
                    rw [hl, h2] at this
                    exact NodeK.noConfusion (Option.some.inj this)

/-- C10: with no destination given and a resolved source that is an
existing regular file, `include` never panics: in particular the
missing-file-name panic branch of `include_file` is unreachable,
because a path resolving to a regular file always has a final normal
component. -/
theorem c10_file_name_panic_unreachable (fs_ : PrivateFS) (w : World) (src : Path)
    (hwf : w.fs.wf) (hcwd : w.fs.find w.cwd = some NodeK.dirK)
    (hfile : w.isFile (fs_.resolveSource src) = true) :
    match fs_.include w src none with
    | IncResult.usage _ _ => False
    | _ => True := by
  have hfn := isFile_fileName hwf hcwd hfile
  unfold PrivateFS.include
  simp only [hfile, if_true]
  unfold PrivateFS.include_file
  cases hfn0 : (fs_.resolveSource src).fileName with
  | none =>
    rw [hfn0] at hfn
    exact Bool.noConfusion hfn
  | some fn =>
    simp only [hfn0]
    cases hc : stdCopy w (fs_.resolveSource src)
        (fs_.directory.pathOf.join ⟨false, [Component.normal fn]⟩) with
    | ok fs1 => simp [hc]
    | error e => simp [hc]

/-- Witness for C10 at a concrete world. -/
theorem c10_witness :
    match exSandbox.include exW (absPath ["f"]) none with
    | IncResult.usage _ _ => False
    | _ => True :=
  c10_file_name_panic_unreachable exSandbox exW (absPath ["f"])
    (by decide) (by decide) (by decide)

/-- C6: an `include` call whose resolved source is an existing regular
file, with no destination, copies the file's bytes to
`sandbox_root/basename(source)` — the resulting filesystem is exactly
the old one with that location set to the source's contents,
overwriting whatever file was there (the destination must not be a
directory, or the raw copy fails). -/
theorem c6_file_include_default_destination (fs_ : PrivateFS) (w : World) (src : Path)
    (rootLoc sLoc : Loc) (c : List Nat) (fn : String)
    (hwf : w.fs.wf)
    (hdir : fs_.directory.pathOf = absPath rootLoc)
    (hroot : w.fs.find rootLoc = some NodeK.dirK)
    (hres : w.resolve (fs_.resolveSource src) = some sLoc)
    (hsf : w.fs.find sLoc = some (NodeK.fileK c))
    (hfn : (fs_.resolveSource src).fileName = some fn)
    (hnd : w.fs.find (rootLoc ++ [fn]) ≠ some NodeK.dirK) :
    fs_.include w src none = IncResult.ok ⟨w.fs.setFile (rootLoc ++ [fn]) c, w.cwd⟩ ∧
      (w.fs.setFile (rootLoc ++ [fn]) c).find (rootLoc ++ [fn]) = some (NodeK.fileK c) := by
  have hfile : w.isFile (fs_.resolveSource src) = true := isFile_true_of hres hsf
  have hdst : w.resolve (fs_.directory.pathOf.join ⟨false, [Component.normal fn]⟩) =
      some (rootLoc ++ [fn]) := by
    rw [hdir, join_absPath_rel]
    unfold World.resolve
    rw [startLoc_absolute _ rfl]
    show resolveSteps w.fs []
      (rootLoc.map Component.normal ++ [Component.normal fn]) = some (rootLoc ++ [fn])
    have hext := w.fs.resolve_extension hwf hroot fn
    rw [List.map_append] at hext
    simpa using hext
  have hcopy := stdCopy_ok hres hsf hdst hnd (by
    rw [List.dropLast_concat]
    exact hroot)
  constructor
  · unfold PrivateFS.include
    simp only [hfile, if_true]
    unfold PrivateFS.include_file
    simp only [hfn, hcopy]
  · rw [Fs.find_setFile, if_pos rfl]

/-- Witness for C6 at a concrete world: the loose file `f` lands at
`sb/f` with its bytes. -/
theorem c6_witness :
    exSandbox.include exW (absPath ["f"]) none =
        IncResult.ok ⟨exFs.setFile (["sb"] ++ ["f"]) [7], exW.cwd⟩ ∧
      (exFs.setFile (["sb"] ++ ["f"]) [7]).find (["sb"] ++ ["f"]) =
        some (NodeK.fileK [7]) :=
  c6_file_include_default_destination exSandbox exW (absPath ["f"]) ["sb"] ["f"] [7] "f"
    (by decide) (by decide) (by decide) (by decide) (by decide) (by decide) (by decide)

/-- `include` on a resolved directory source with no destination is the
wrapped `fs_extra` copy into the sandbox root path. -/
theorem include_dir_none_eq (fs_ : PrivateFS) (w : World) (src : Path) (sLoc : Loc)
    (hres : w.resolve (fs_.resolveSource src) = some sLoc)
    (hsd : w.fs.find sLoc = some NodeK.dirK) :
    fs_.include w src none =
      match feDirCopy ⟨false, false, true⟩ w (fs_.resolveSource src) fs_.directory.pathOf with
      | Except.ok fs1 => IncResult.ok ⟨fs1, w.cwd⟩
      | Except.error e => IncResult.staging ⟨e.2, w.cwd⟩ ctxCopyDir := by
  have hfile : w.isFile (fs_.resolveSource src) = false := isFile_false_of_dir hres hsd
  have hdirt : w.isDir (fs_.resolveSource src) = true := isDir_true_of hres hsd
  simp [PrivateFS.include, PrivateFS.include_directory, hfile, hdirt, CopyOptions.new]

/-- The sandbox root path resolves to its location. -/
theorem rootPath_resolve {fs_ : PrivateFS} {w : World} {rootLoc : Loc} (hwf : w.fs.wf)
    (hdir : fs_.directory.pathOf = absPath rootLoc)
    (hroot : w.fs.find rootLoc = some NodeK.dirK) :
    w.resolve fs_.directory.pathOf = some rootLoc := by
  rw [hdir]
  unfold World.resolve
  rw [startLoc_absolute _ rfl, absPath_comps]
  exact w.fs.resolve_of_find hwf hroot

/-- C7 counterexample: with the sandbox root already holding a file
`x`, a no-destination directory `include` of `srcd` (whose contents
are `x` and `y/z`) does not merge the contents into the root: the call
returns a staging error (outcome tag `2`), and `sb/x` does not hold
the source's contents `[1]` afterwards. -/
theorem c7_counterexample :
    (exSandbox.include exW (absPath ["srcd"]) none).tagOf = 2 ∧
      (exSandbox.include exW (absPath ["srcd"]) none).fsOf.find (["sb"] ++ ["x"]) ≠
        some (NodeK.fileK [1]) := by
  exact ⟨rfl, by decide⟩

/-- C7 (amended): an `include` call whose resolved source is a
directory, with no destination, targets the sandbox root itself, and —
provided no source content path is already occupied at the sandbox
root — merges the directory's contents directly into the root (files
with their contents, subdirectories as directories, relative structure
preserved), touches nothing else, and introduces no extra top-level
directory named after the source directory.  With an occupied path the
underlying copy fails instead of merging (see the counterexample), so
the proviso is necessary. -/
theorem c7_dir_include_merges_into_root (fs_ : PrivateFS) (w : World) (src : Path)
    (rootLoc sLoc : Loc)
    (hwf : w.fs.wf)
    (hdir : fs_.directory.pathOf = absPath rootLoc)
    (hroot : w.fs.find rootLoc = some NodeK.dirK)
    (hres : w.resolve (fs_.resolveSource src) = some sLoc)
    (hsd : w.fs.find sLoc = some NodeK.dirK)
    (hnc : ∀ rk ∈ w.fs.strictUnder sLoc, w.fs.find (rootLoc ++ rk.1) = none) :
    ∃ fs2 : Fs, fs_.include w src none = IncResult.ok ⟨fs2, w.cwd⟩ ∧
      (∀ (r : Loc) (c : List Nat), (r, NodeK.fileK c) ∈ w.fs.strictUnder sLoc →
        fs2.find (rootLoc ++ r) = some (NodeK.fileK c)) ∧
      (∀ r : Loc, (r, NodeK.dirK) ∈ w.fs.strictUnder sLoc →
        fs2.find (rootLoc ++ r) = some NodeK.dirK) ∧
      (∀ bn : String, (fs_.resolveSource src).fileName = some bn →
        (∀ rk ∈ w.fs.strictUnder sLoc, rk.1 ≠ [bn]) →
        w.fs.find (rootLoc ++ [bn]) = none → fs2.find (rootLoc ++ [bn]) = none) ∧
      (∀ l : Loc, (∀ rk ∈ w.fs.strictUnder sLoc, l ≠ rootLoc ++ rk.1) →
        fs2.find l = w.fs.find l) := by
  have hresd := rootPath_resolve hwf hdir hroot
  obtain ⟨fs2, hok, hfiles, hdirs, hframe⟩ :=
    feDirCopy_ok false false hwf hres hsd hresd hroot hnc
  refine ⟨fs2, ?_, hfiles, hdirs, ?_, hframe⟩
  · rw [include_dir_none_eq fs_ w src sLoc hres hsd, hok]
  · intro bn _ hnobn hnone
    rw [hframe (rootLoc ++ [bn]) (by
      intro rk hrk he
      exact hnobn rk hrk ((List.append_cancel_left he).symm))]
    exact hnone

/-- Witness for C7: the contents of `srcd` (`x`, `y/z`) land at
`sb/x` and `sb/y/z` in a collision-free sandbox, and no `sb/srcd`
directory appears. -/
theorem c7_witness :
    (exSandbox.include exWClean (absPath ["srcd"]) none).tagOf = 0 ∧
      (exSandbox.include exWClean (absPath ["srcd"]) none).fsOf.find (["sb"] ++ ["x"]) =
        some (NodeK.fileK [1]) ∧
      (exSandbox.include exWClean (absPath ["srcd"]) none).fsOf.find (["sb"] ++ ["y", "z"]) =
        some (NodeK.fileK [3]) ∧
      (exSandbox.include exWClean (absPath ["srcd"]) none).fsOf.find (["sb"] ++ ["srcd"]) =
        none := by
  obtain ⟨fs2, hok, hfiles, hdirs, hbn, hframe⟩ :=
    c7_dir_include_merges_into_root exSandbox exWClean (absPath ["srcd"]) ["sb"] ["srcd"]
      (by decide) (by decide) (by decide) (by decide) (by decide) (by decide)
  rw [hok]
  exact ⟨rfl, hfiles ["x"] [1] (by decide), hfiles ["y", "z"] [3] (by decide),
    hbn "srcd" (by decide) (by decide) (by decide)⟩

/-- C1 counterexample: a directory `include` whose source contains `x`
while the sandbox root already holds a file `x` does not overwrite and
does not succeed — it returns a staging error (the underlying
`fs_extra` copy fails with an already-exists error, after having
created the non-colliding subdirectory `y`), and the old contents `[2]`
of `sb/x` survive, not the source's `[1]`. -/
theorem c1_counterexample :
    exSandbox.include exW (absPath ["srcd"]) none =
        IncResult.staging ⟨exFs.addDir ["sb", "y"], ["sb"]⟩ ctxCopyDir ∧
      (exFs.addDir ["sb", "y"]).find ["sb", "x"] = some (NodeK.fileK [2]) := by
  constructor
  · rfl
  · rfl

/-- C1 (amended): a directory `include` does not merge over existing
files.  If any source file's relative path is already occupied at the
destination, the call fails with a staging error instead of
overwriting; and if no source content path is occupied at the
destination, the call succeeds, recursively copying the directory's
contents into the sandbox root (creating missing directories,
preserving relative structure) and leaving every pre-existing file
untouched. -/
theorem c1_dir_include_collision_or_merge (fs_ : PrivateFS) (w : World) (src : Path)
    (rootLoc sLoc : Loc)
    (hwf : w.fs.wf)
    (hdir : fs_.directory.pathOf = absPath rootLoc)
    (hroot : w.fs.find rootLoc = some NodeK.dirK)
    (hres : w.resolve (fs_.resolveSource src) = some sLoc)
    (hsd : w.fs.find sLoc = some NodeK.dirK) :
    ((∃ rc ∈ fileRelsOf (w.fs.strictUnder sLoc),
        (w.fs.find (rootLoc ++ rc.1)).isSome = true) →
      ∃ (w2 : World) (m : String), fs_.include w src none = IncResult.staging w2 m) ∧
    ((∀ rk ∈ w.fs.strictUnder sLoc, w.fs.find (rootLoc ++ rk.1) = none) →
      ∃ fs2 : Fs, fs_.include w src none = IncResult.ok ⟨fs2, w.cwd⟩ ∧
        (∀ (r : Loc) (c : List Nat), (r, NodeK.fileK c) ∈ w.fs.strictUnder sLoc →
          fs2.find (rootLoc ++ r) = some (NodeK.fileK c)) ∧
        (∀ (l : Loc) (c0 : List Nat), w.fs.find l = some (NodeK.fileK c0) →
          fs2.find l = some (NodeK.fileK c0))) := by
  have hresd := rootPath_resolve hwf hdir hroot
  constructor
  · intro hcoll
    obtain ⟨m, fsx, herr⟩ := feDirCopy_collision hres hsd hresd hroot hcoll
    refine ⟨⟨fsx, w.cwd⟩, ctxCopyDir, ?_⟩
    rw [include_dir_none_eq fs_ w src sLoc hres hsd, herr]
  · intro hnc
    obtain ⟨fs2, hok, hfiles, _, hframe⟩ :=
      feDirCopy_ok false false hwf hres hsd hresd hroot hnc
    refine ⟨fs2, ?_, hfiles, ?_⟩
    · rw [include_dir_none_eq fs_ w src sLoc hres hsd, hok]
    · intro l c0 hl
      rw [hframe l (by
        intro rk hrk he
        have hx := hnc rk hrk
        rw [← he] at hx
        rw [hx] at hl
        exact Option.noConfusion hl)]
      exact hl

/-- Witness for C1's amended statement: in the collision world the
call stages an error (tag 2); in the collision-free world it succeeds
(tag 0), places the source file and preserves the unrelated file. -/
theorem c1_witness :
    (exSandbox.include exW (absPath ["srcd"]) none).tagOf = 2 ∧
      (exSandbox.include exWClean (absPath ["srcd"]) none).tagOf = 0 ∧
      (exSandbox.include exWClean (absPath ["srcd"]) none).fsOf.find (["sb"] ++ ["x"]) =
        some (NodeK.fileK [1]) ∧
      (exSandbox.include exWClean (absPath ["srcd"]) none).fsOf.find ["f"] =
        some (NodeK.fileK [7]) := by
  obtain ⟨w2, m, hstag⟩ := (c1_dir_include_collision_or_merge exSandbox exW (absPath ["srcd"])
      ["sb"] ["srcd"] (by decide) (by decide) (by decide) (by decide) (by decide)).1 (by decide)
  obtain ⟨fs2, hok, hfiles, hpres⟩ := (c1_dir_include_collision_or_merge exSandbox exWClean
      (absPath ["srcd"]) ["sb"] ["srcd"] (by decide) (by decide) (by decide) (by decide)
      (by decide)).2 (by decide)
  rw [hstag, hok]
  exact ⟨rfl, rfl, hfiles ["x"] [1] (by decide), hpres ["f"] [7] (by decide)⟩

/-! ### Independence of absolute-path operations from the working
directory -/

theorem resolve_cwd {fs : Fs} (c1 c2 : Loc) {p : Path} (h : p.absolute = true) :
    World.resolve ⟨fs, c1⟩ p = World.resolve ⟨fs, c2⟩ p := by
  simp [World.resolve, World.startLoc, h]

theorem isFile_cwd {fs : Fs} (c1 c2 : Loc) {p : Path} (h : p.absolute = true) :
    World.isFile ⟨fs, c1⟩ p = World.isFile ⟨fs, c2⟩ p := by
  unfold World.isFile
  rw [resolve_cwd c1 c2 h]

theorem isDir_cwd {fs : Fs} (c1 c2 : Loc) {p : Path} (h : p.absolute = true) :
    World.isDir ⟨fs, c1⟩ p = World.isDir ⟨fs, c2⟩ p := by
  unfold World.isDir
  rw [resolve_cwd c1 c2 h]

theorem stdCopy_cwd {fs : Fs} (c1 c2 : Loc) {src dst : Path}
    (h1 : src.absolute = true) (h2 : dst.absolute = true) :
    stdCopy ⟨fs, c1⟩ src dst = stdCopy ⟨fs, c2⟩ src dst := by
  unfold stdCopy
  rw [resolve_cwd c1 c2 h1, resolve_cwd c1 c2 h2]

theorem createDirAll_cwd {fs : Fs} (c1 c2 : Loc) {p : Path} (h : p.absolute = true) :
    createDirAll ⟨fs, c1⟩ p = createDirAll ⟨fs, c2⟩ p := by
  simp [createDirAll, World.startLoc, h]

theorem feDirCopy_cwd (opts : CopyOptions) {fs : Fs} (c1 c2 : Loc) {src dst : Path}
    (h1 : src.absolute = true) (h2 : dst.absolute = true) :
    feDirCopy opts ⟨fs, c1⟩ src dst = feDirCopy opts ⟨fs, c2⟩ src dst := by
  unfold feDirCopy
  rw [resolve_cwd c1 c2 h1, resolve_cwd c1 c2 h2]

theorem include_file_cwd (fs_ : PrivateFS) (fs : Fs) (c1 c2 : Loc) (inner : Path)
    (dstOpt : Option Path) (hin : inner.absolute = true)
    (hdir : fs_.directory.pathOf.absolute = true) :
    (fs_.include_file ⟨fs, c1⟩ inner dstOpt).fsOf =
        (fs_.include_file ⟨fs, c2⟩ inner dstOpt).fsOf ∧
      (fs_.include_file ⟨fs, c1⟩ inner dstOpt).tagOf =
        (fs_.include_file ⟨fs, c2⟩ inner dstOpt).tagOf ∧
      (fs_.include_file ⟨fs, c1⟩ inner dstOpt).msgOf =
        (fs_.include_file ⟨fs, c2⟩ inner dstOpt).msgOf := by
  unfold PrivateFS.include_file
  cases dstOpt with
  | none =>
    cases hfn : inner.fileName with
    | none =>
      exact ⟨rfl, rfl, rfl⟩
    | some fn =>
      simp only
      rw [stdCopy_cwd c1 c2 hin (join_absolute hdir)]
      cases hc : stdCopy ⟨fs, c2⟩ inner
          (fs_.directory.pathOf.join ⟨false, [Component.normal fn]⟩) with
      | ok fs1 => exact ⟨rfl, rfl, rfl⟩
      | error e => exact ⟨rfl, rfl, rfl⟩
  | some p =>
    cases hrel : p.isRelative with
    | false =>
      simp only [hrel]
      exact ⟨rfl, rfl, rfl⟩
    | true =>
      simp only [hrel, if_true]
      cases hpar : p.parent with
      | none =>
        simp only
        rw [stdCopy_cwd c1 c2 hin (join_absolute hdir)]
        cases hc : stdCopy ⟨fs, c2⟩ inner (fs_.directory.pathOf.join p) with
        | ok fs1 => exact ⟨rfl, rfl, rfl⟩
        | error e => exact ⟨rfl, rfl, rfl⟩
      | some par =>
        simp only
        rw [createDirAll_cwd c1 c2 (join_absolute hdir)]
        cases hc : createDirAll ⟨fs, c2⟩ (fs_.directory.pathOf.join par) with
        | error e => exact ⟨rfl, rfl, rfl⟩
        | ok fs1 =>
          dsimp only
          rw [stdCopy_cwd c1 c2 hin (join_absolute hdir)]
          cases hc2 : stdCopy ⟨fs1, c2⟩ inner (fs_.directory.pathOf.join p) with
          | ok fs2 => exact ⟨rfl, rfl, rfl⟩
          | error e => exact ⟨rfl, rfl, rfl⟩

theorem include_directory_cwd (fs_ : PrivateFS) (fs : Fs) (c1 c2 : Loc) (inner : Path)
    (dstOpt : Option Path) (hin : inner.absolute = true)
    (hdir : fs_.directory.pathOf.absolute = true) :
    (fs_.include_directory ⟨fs, c1⟩ inner dstOpt).fsOf =
        (fs_.include_directory ⟨fs, c2⟩ inner dstOpt).fsOf ∧
      (fs_.include_directory ⟨fs, c1⟩ inner dstOpt).tagOf =
        (fs_.include_directory ⟨fs, c2⟩ inner dstOpt).tagOf ∧
      (fs_.include_directory ⟨fs, c1⟩ inner dstOpt).msgOf =
        (fs_.include_directory ⟨fs, c2⟩ inner dstOpt).msgOf := by
  unfold PrivateFS.include_directory
  cases dstOpt with
  | none =>
    simp only
    rw [feDirCopy_cwd _ c1 c2 hin hdir]
    cases hc : feDirCopy ⟨CopyOptions.new.overwrite, CopyOptions.new.skip_exist, true⟩
        ⟨fs, c2⟩ inner fs_.directory.pathOf with
    | ok fs1 => exact ⟨rfl, rfl, rfl⟩
    | error e => exact ⟨rfl, rfl, rfl⟩
  | some p =>
    cases hrel : p.isRelative with
    | false =>
      simp only [hrel]
      exact ⟨rfl, rfl, rfl⟩
    | true =>
      simp only [hrel, if_true]
      cases hpar : p.parent with
      | none =>
        simp only
        rw [feDirCopy_cwd _ c1 c2 hin (join_absolute hdir)]
        cases hc : feDirCopy ⟨CopyOptions.new.overwrite, CopyOptions.new.skip_exist, true⟩
            ⟨fs, c2⟩ inner (fs_.directory.pathOf.join p) with
        | ok fs1 => exact ⟨rfl, rfl, rfl⟩
        | error e => exact ⟨rfl, rfl, rfl⟩
      | some par =>
        simp only
        rw [createDirAll_cwd c1 c2 (join_absolute hdir)]
        cases hc : createDirAll ⟨fs, c2⟩ (fs_.directory.pathOf.join par) with
        | error e => exact ⟨rfl, rfl, rfl⟩
        | ok fs1 =>
          dsimp only
          rw [feDirCopy_cwd _ c1 c2 hin (join_absolute hdir)]
          cases hc2 : feDirCopy ⟨CopyOptions.new.overwrite, CopyOptions.new.skip_exist, true⟩
              ⟨fs1, c2⟩ inner (fs_.directory.pathOf.join p) with
          | ok fs2 => exact ⟨rfl, rfl, rfl⟩
          | error e => exact ⟨rfl, rfl, rfl⟩

/-- C5: source resolution of `include`.  A relative source path is
resolved by joining it onto `ran_from` — the call behaves exactly as if
the joined path had been passed — and (with an absolute `ran_from` and
sandbox root, as the constructors produce) the outcome's filesystem,
kind and message never depend on the process's current working
directory, so the source is never resolved against the sandbox's
current directory.  An absolute source path is used verbatim by
definition of the embedded resolution. -/
theorem c5_source_resolution (fs_ : PrivateFS) (fs : Fs) (c1 c2 : Loc) (src : Path)
    (dstOpt : Option Path)
    (hrf : fs_.ran_from.absolute = true) (hdir : fs_.directory.pathOf.absolute = true) :
    (src.isRelative = true →
      fs_.include ⟨fs, c1⟩ src dstOpt = fs_.include ⟨fs, c1⟩ (fs_.ran_from.join src) dstOpt) ∧
    ((fs_.include ⟨fs, c1⟩ src dstOpt).fsOf = (fs_.include ⟨fs, c2⟩ src dstOpt).fsOf ∧
      (fs_.include ⟨fs, c1⟩ src dstOpt).tagOf = (fs_.include ⟨fs, c2⟩ src dstOpt).tagOf ∧
      (fs_.include ⟨fs, c1⟩ src dstOpt).msgOf = (fs_.include ⟨fs, c2⟩ src dstOpt).msgOf) := by
  constructor
  · intro hsrc
    unfold PrivateFS.include
    rw [resolveSource_of_rel hrf hsrc]
  · have hinner : (fs_.resolveSource src).absolute = true := by
      unfold PrivateFS.resolveSource
      cases hs : src.isRelative with
      | true => simpa [hs] using join_absolute hrf
      | false =>
        have ha : src.absolute = true := by
          unfold Path.isRelative at hs
          cases hb : src.absolute with
          | true => rfl
          | false =>
            rw [hb] at hs
            exact Bool.noConfusion hs
        simpa [hs] using ha
    unfold PrivateFS.include
    dsimp only
    rw [isFile_cwd c1 c2 hinner]
    cases hf : World.isFile ⟨fs, c2⟩ (fs_.resolveSource src) with
    | true =>
      exact include_file_cwd fs_ fs c1 c2 (fs_.resolveSource src) dstOpt hinner hdir
    | false =>
      rw [isDir_cwd c1 c2 hinner]
      cases hd : World.isDir ⟨fs, c2⟩ (fs_.resolveSource src) with
      | true =>
        exact include_directory_cwd fs_ fs c1 c2 (fs_.resolveSource src) dstOpt hinner hdir
      | false =>
        exact ⟨rfl, rfl, rfl⟩

/-- Witness for C5 at a concrete relative source and two different
working directories. -/
theorem c5_witness :
    (exSandbox.include ⟨exFs, ["sb"]⟩ ⟨false, [Component.normal "f"]⟩ none =
      exSandbox.include ⟨exFs, ["sb"]⟩
        (exSandbox.ran_from.join ⟨false, [Component.normal "f"]⟩) none) ∧
    ((exSandbox.include ⟨exFs, ["sb"]⟩ ⟨false, [Component.normal "f"]⟩ none).fsOf =
        (exSandbox.include ⟨exFs, ["srcd"]⟩ ⟨false, [Component.normal "f"]⟩ none).fsOf ∧
      (exSandbox.include ⟨exFs, ["sb"]⟩ ⟨false, [Component.normal "f"]⟩ none).tagOf =
        (exSandbox.include ⟨exFs, ["srcd"]⟩ ⟨false, [Component.normal "f"]⟩ none).tagOf ∧
      (exSandbox.include ⟨exFs, ["sb"]⟩ ⟨false, [Component.normal "f"]⟩ none).msgOf =
        (exSandbox.include ⟨exFs, ["srcd"]⟩ ⟨false, [Component.normal "f"]⟩ none).msgOf) :=
  ⟨(c5_source_resolution exSandbox exFs ["sb"] ["srcd"] ⟨false, [Component.normal "f"]⟩ none
      (by decide) (by decide)).1 (by decide),
   (c5_source_resolution exSandbox exFs ["sb"] ["srcd"] ⟨false, [Component.normal "f"]⟩ none
      (by decide) (by decide)).2⟩

/-! ### Frame lemmas for `include` -/

theorem parent_none {p : Path} (h : p.parent = none) : p.comps = [] := by
  unfold Path.parent at h
  cases hc : p.comps with
  | nil => rfl
  | cons a t =>
    simp only [hc] at h
    exact Option.noConfusion h

theorem parent_some {p : Path} {par : Path} (h : p.parent = some par) :
    par = ⟨p.absolute, p.comps.dropLast⟩ := by
  unfold Path.parent at h
  cases hc : p.comps with
  | nil =>
    simp only [hc] at h
    exact Option.noConfusion h
  | cons a t =>
    simp only [hc] at h
    exact (Option.some.inj h).symm

/-- Resolving the sandbox root path joined with a relative all-normal
destination yields the corresponding extension of the root location. -/
theorem resolve_join_shape {fs_ : PrivateFS} {rootLoc : Loc}
    (hdir : fs_.directory.pathOf = absPath rootLoc) (w1 : World) (names : List String)
    {dl : Loc}
    (h : w1.resolve (fs_.directory.pathOf.join ⟨false, names.map Component.normal⟩) = some dl) :
    dl = rootLoc ++ names := by
  rw [hdir, join_absPath_rel] at h
  unfold World.resolve at h
  rw [startLoc_absolute _ rfl] at h
  have h2 : resolveSteps w1.fs [] ((rootLoc ++ names).map Component.normal) = some dl := by
    rw [List.map_append]
    exact h
  have := resolveSteps_normal_shape w1.fs (rootLoc ++ names) [] dl h2
  simpa using this

theorem include_file_frame (fs_ : PrivateFS) (w : World) (inner : Path)
    (dstOpt : Option Path) (rootLoc : Loc) (hwf : w.fs.wf)
    (hdir : fs_.directory.pathOf = absPath rootLoc)
    (hroot : w.fs.find rootLoc = some NodeK.dirK)
    (hnp : ∀ q : Path, dstOpt = some q → ∀ cc ∈ q.comps, cc ≠ Component.parentDir) :
    (fs_.include_file w inner dstOpt).cwdOf = w.cwd ∧
    ∀ l : Loc, ¬(rootLoc <+: l ∧ l ≠ rootLoc) →
      (fs_.include_file w inner dstOpt).fsOf.find l = w.fs.find l := by
  unfold PrivateFS.include_file
  cases dstOpt with
  | none =>
    cases hfn : inner.fileName with
    | none => exact ⟨rfl, fun l _ => rfl⟩
    | some fn =>
      dsimp only
      cases hc : stdCopy w inner (fs_.directory.pathOf.join ⟨false, [Component.normal fn]⟩) with
      | error e => exact ⟨rfl, fun l _ => rfl⟩
      | ok fs1 =>
        obtain ⟨dl, c, hresd, hnd, hfs1⟩ := stdCopy_char hc
        have hdl : dl = rootLoc ++ [fn] := resolve_join_shape hdir w [fn] hresd
        refine ⟨rfl, ?_⟩
        intro l hl
        show fs1.find l = w.fs.find l
        rw [hfs1, Fs.find_setFile]
        have hne : dl ≠ l := by
          rw [hdl]
          rintro rfl
          exact hl ⟨List.prefix_append rootLoc [fn], append_ne_left (by simp)⟩
        rw [if_neg hne]
  | some p =>
    obtain ⟨pa, pc⟩ := p
    obtain ⟨names, hnames⟩ := allNormal_names (hnp ⟨pa, pc⟩ rfl)
    subst hnames
    cases pa with
    | true => exact ⟨rfl, fun l _ => rfl⟩
    | false =>
      cases names with
      | nil =>
        dsimp only [List.map_nil, Path.isRelative, Path.parent]
        cases hc : stdCopy w inner (fs_.directory.pathOf.join ⟨false, []⟩) with
        | error e => exact ⟨rfl, fun l _ => rfl⟩
        | ok fs1 =>
          obtain ⟨dl, c, hresd, hnd, hfs1⟩ := stdCopy_char hc
          have hdl : dl = rootLoc := by
            have := resolve_join_shape hdir w [] hresd
            simpa using this
          rw [hdl] at hnd
          exact absurd hroot hnd
      | cons n0 ns =>
        dsimp only [List.map_cons, Path.isRelative, Path.parent]
        have hjoin1 : fs_.directory.pathOf.join
            ⟨false, (Component.normal n0 :: ns.map Component.normal).dropLast⟩ =
            ⟨true, (rootLoc ++ (n0 :: ns).dropLast).map Component.normal⟩ := by
          rw [hdir, join_absPath_rel]
          congr 1
          rw [List.map_append]
          congr 1
          exact (List.map_dropLast Component.normal (n0 :: ns)).symm
        rw [hjoin1]
        have hmut := @createDirAll_mut w rootLoc ((n0 :: ns).dropLast) hwf hroot
        cases hcda : createDirAll w
            ⟨true, (rootLoc ++ (n0 :: ns).dropLast).map Component.normal⟩ with
        | error e =>
          rw [hcda] at hmut
          exact ⟨rfl, fun l hl => hmut l hl⟩
        | ok fs1 =>
          rw [hcda] at hmut
          dsimp only
          cases hc : stdCopy ⟨fs1, w.cwd⟩ inner
              (fs_.directory.pathOf.join ⟨false, Component.normal n0 :: ns.map Component.normal⟩) with
          | error e => exact ⟨rfl, fun l hl => hmut l hl⟩
          | ok fs2 =>
            obtain ⟨dl, c, hresd, hnd, hfs2⟩ := stdCopy_char hc
            have hdl : dl = rootLoc ++ (n0 :: ns) :=
              resolve_join_shape hdir ⟨fs1, w.cwd⟩ (n0 :: ns) hresd
            refine ⟨rfl, ?_⟩
            intro l hl
            show fs2.find l = w.fs.find l
            rw [hfs2]
            show ((⟨fs1, w.cwd⟩ : World).fs.setFile dl c).find l = w.fs.find l
            rw [Fs.find_setFile]
            have hne : dl ≠ l := by
              rw [hdl]
              rintro rfl
              exact hl ⟨List.prefix_append rootLoc (n0 :: ns), append_ne_left (by simp)⟩
            rw [if_neg hne]
            exact hmut l hl

theorem include_directory_frame (fs_ : PrivateFS) (w : World) (inner : Path)
    (dstOpt : Option Path) (rootLoc : Loc) (hwf : w.fs.wf)
    (hdir : fs_.directory.pathOf = absPath rootLoc)
    (hroot : w.fs.find rootLoc = some NodeK.dirK)
    (hnp : ∀ q : Path, dstOpt = some q → ∀ cc ∈ q.comps, cc ≠ Component.parentDir) :
    (fs_.include_directory w inner dstOpt).cwdOf = w.cwd ∧
    ∀ l : Loc, ¬(rootLoc <+: l ∧ l ≠ rootLoc) →
      (fs_.include_directory w inner dstOpt).fsOf.find l = w.fs.find l := by
  unfold PrivateFS.include_directory
  cases dstOpt with
  | none =>
    dsimp only
    have hresd := rootPath_resolve hwf hdir hroot
    have hmut := feDirCopy_mut CopyOptions.new.overwrite CopyOptions.new.skip_exist
      w inner fs_.directory.pathOf hresd hroot
    cases hc : feDirCopy ⟨CopyOptions.new.overwrite, CopyOptions.new.skip_exist, true⟩
        w inner fs_.directory.pathOf with
    | ok fs1 =>
      rw [hc] at hmut
      exact ⟨rfl, fun l hl => hmut l hl⟩
    | error e =>
      rw [hc] at hmut
      exact ⟨rfl, fun l hl => hmut l hl⟩
  | some p =>
    obtain ⟨pa, pc⟩ := p
    obtain ⟨names, hnames⟩ := allNormal_names (hnp ⟨pa, pc⟩ rfl)
    subst hnames
    cases pa with
    | true => exact ⟨rfl, fun l _ => rfl⟩
    | false =>
      cases names with
      | nil =>
        dsimp only [List.map_nil, Path.isRelative, Path.parent]
        have hresd : w.resolve (fs_.directory.pathOf.join ⟨false, []⟩) = some rootLoc := by
          rw [hdir, join_absPath_rel]
          unfold World.resolve
          rw [startLoc_absolute _ rfl]
          have := w.fs.resolve_of_find hwf hroot
          simpa using this
        have hmut := feDirCopy_mut CopyOptions.new.overwrite CopyOptions.new.skip_exist
          w inner (fs_.directory.pathOf.join ⟨false, []⟩) hresd hroot
        cases hc : feDirCopy ⟨CopyOptions.new.overwrite, CopyOptions.new.skip_exist, true⟩
            w inner (fs_.directory.pathOf.join ⟨false, []⟩) with
        | ok fs1 =>
          rw [hc] at hmut
          exact ⟨rfl, fun l hl => hmut l hl⟩
        | error e =>
          rw [hc] at hmut
          exact ⟨rfl, fun l hl => hmut l hl⟩
      | cons n0 ns =>
        dsimp only [List.map_cons, Path.isRelative, Path.parent]
        have hjoin1 : fs_.directory.pathOf.join
            ⟨false, (Component.normal n0 :: ns.map Component.normal).dropLast⟩ =
            ⟨true, (rootLoc ++ (n0 :: ns).dropLast).map Component.normal⟩ := by
          rw [hdir, join_absPath_rel]
          congr 1
          rw [List.map_append]
          congr 1
          exact (List.map_dropLast Component.normal (n0 :: ns)).symm
        rw [hjoin1]
        have hmut := @createDirAll_mut w rootLoc ((n0 :: ns).dropLast) hwf hroot
        cases hcda : createDirAll w
            ⟨true, (rootLoc ++ (n0 :: ns).dropLast).map Component.normal⟩ with
        | error e =>
          rw [hcda] at hmut
          exact ⟨rfl, fun l hl => hmut l hl⟩
        | ok fs1 =>
          rw [hcda] at hmut
          dsimp only
          cases hc : feDirCopy ⟨CopyOptions.new.overwrite, CopyOptions.new.skip_exist, true⟩
              ⟨fs1, w.cwd⟩ inner
              (fs_.directory.pathOf.join
                ⟨false, Component.normal n0 :: ns.map Component.normal⟩) with
          | ok fs2 =>
            refine ⟨rfl, ?_⟩
            intro l hl
            have hincl := feDirCopy_mut_incl CopyOptions.new.overwrite CopyOptions.new.skip_exist
              ⟨fs1, w.cwd⟩ inner
              (fs_.directory.pathOf.join ⟨false, Component.normal n0 :: ns.map Component.normal⟩)
              l (by
                intro dLoc hres hpre
                have hdl : dLoc = rootLoc ++ (n0 :: ns) :=
                  resolve_join_shape hdir ⟨fs1, w.cwd⟩ (n0 :: ns) hres
                rw [hdl] at hpre
                refine hl ⟨(List.prefix_append rootLoc (n0 :: ns)).trans hpre, ?_⟩
                rintro rfl
                have h1 := hpre.length_le
                rw [List.length_append, List.length_cons] at h1
                omega
              )
            rw [hc] at hincl
            show fs2.find l = w.fs.find l
            exact (by exact hincl : fs2.find l = fs1.find l).trans (hmut l hl)
          | error e =>
            refine ⟨rfl, ?_⟩
            intro l hl
            have hincl := feDirCopy_mut_incl CopyOptions.new.overwrite CopyOptions.new.skip_exist
              ⟨fs1, w.cwd⟩ inner
              (fs_.directory.pathOf.join ⟨false, Component.normal n0 :: ns.map Component.normal⟩)
              l (by
                intro dLoc hres hpre
                have hdl : dLoc = rootLoc ++ (n0 :: ns) :=
                  resolve_join_shape hdir ⟨fs1, w.cwd⟩ (n0 :: ns) hres
                rw [hdl] at hpre
                refine hl ⟨(List.prefix_append rootLoc (n0 :: ns)).trans hpre, ?_⟩
                rintro rfl
                have h1 := hpre.length_le
                rw [List.length_append, List.length_cons] at h1
                omega
              )
            rw [hc] at hincl
            show e.2.find l = w.fs.find l
            exact (by exact hincl : e.2.find l = fs1.find l).trans (hmut l hl)

/-- C9 counterexample: an `include` of the file `f` with the relative
destination `../evil` succeeds and writes `evil` at the filesystem
root, a location that is not under the sandbox root `sb` and held no
node before the call — `include` can mutate the filesystem outside the
sandbox root. -/
theorem c9_counterexample :
    exSandbox.include exW (absPath ["f"])
        (some ⟨false, [Component.parentDir, Component.normal "evil"]⟩) =
        IncResult.ok ⟨exFs.setFile ["evil"] [7], ["sb"]⟩ ∧
      exFs.find ["evil"] = none ∧ ¬(["sb"] <+: (["evil"] : Loc)) := by
  refine ⟨?_, ?_, ?_⟩
  · rfl
  · rfl
  · decide

/-- C9 (amended): an `include` call never changes the process working
directory (the outcome carries the input working directory unchanged;
the sandbox value itself is taken immutably), and, provided the
destination path contains no `..` component, every filesystem change
is confined to locations strictly below the sandbox root — with a
`..`-bearing destination the copy can land outside the root. -/
theorem c9_frame (fs_ : PrivateFS) (w : World) (src : Path) (dstOpt : Option Path)
    (rootLoc : Loc)
    (hwf : w.fs.wf)
    (hdir : fs_.directory.pathOf = absPath rootLoc)
    (hroot : w.fs.find rootLoc = some NodeK.dirK)
    (hnp : ∀ q : Path, dstOpt = some q → ∀ cc ∈ q.comps, cc ≠ Component.parentDir) :
    (fs_.include w src dstOpt).cwdOf = w.cwd ∧
    ∀ l : Loc, ¬(rootLoc <+: l ∧ l ≠ rootLoc) →
      (fs_.include w src dstOpt).fsOf.find l = w.fs.find l := by
  unfold PrivateFS.include
  dsimp only
  cases hf : w.isFile (fs_.resolveSource src) with
  | true =>
    exact include_file_frame fs_ w (fs_.resolveSource src) dstOpt rootLoc hwf hdir hroot hnp
  | false =>
    cases hd : w.isDir (fs_.resolveSource src) with
    | true =>
      exact include_directory_frame fs_ w (fs_.resolveSource src) dstOpt rootLoc hwf hdir hroot hnp
    | false =>
      exact ⟨rfl, fun l _ => rfl⟩

/-- Witness for C9's amended statement at a concrete call with a
`..`-free destination. -/
theorem c9_witness :
    (exSandbox.include exW (absPath ["f"])
        (some ⟨false, [Component.normal "d", Component.normal "o"]⟩)).cwdOf = exW.cwd ∧
      (exSandbox.include exW (absPath ["f"])
        (some ⟨false, [Component.normal "d", Component.normal "o"]⟩)).fsOf.find ["f"] =
        exW.fs.find ["f"] :=
  ⟨(c9_frame exSandbox exW (absPath ["f"])
      (some ⟨false, [Component.normal "d", Component.normal "o"]⟩) ["sb"]
      (by decide) (by decide) (by decide) (by decide)).1,
   (c9_frame exSandbox exW (absPath ["f"])
      (some ⟨false, [Component.normal "d", Component.normal "o"]⟩) ["sb"]
      (by decide) (by decide) (by decide) (by decide)).2 ["f"] (by decide)⟩

end Assay
